import Mathlib

/-
  Verification development for the generatorbnf text-generation library.

  The TypeScript source is shallowly embedded:
  * JS numbers are modelled as unnormalized rationals (structure Q below).
    Floating-point rounding is not modelled; the special values NaN is a
    distinct primitive, and the signed infinities produced by division by
    zero are collapsed into NaN (no claim exercises them).
  * JS objects and arrays live in an explicit heap (addresses are list
    indices); in-place mutation is heap update, so the aliasing behaviour
    of the source (shallow copies, deep JSON clones, shared Map objects)
    is represented faithfully.
  * The mutable Map of variables is threaded explicitly: every evaluate
    call returns the final state of the Map object that was passed to it,
    mirroring which map object each piece of the source reads and writes.
  * Recursion is fuel-indexed; running out of fuel is a distinct error
    (modelling nontermination / stack overflow) that propagates
    transparently.
  * Error messages follow the source except that single-quote marks
    around interpolated names are omitted.
-/

namespace GenBNF

/-- Unnormalized rational number standing in for a JS number.  The
denominator is kept nonzero by all constructions used here; no gcd
normalization is performed so that all arithmetic reduces in the kernel. -/
structure Q where
  n : Int
  d : Nat
  deriving DecidableEq, Repr

def Q.ofInt (i : Int) : Q := ⟨i, 1⟩

def Q.ofNat (m : Nat) : Q := ⟨Int.ofNat m, 1⟩

def Q.add (a b : Q) : Q := ⟨a.n * b.d + b.n * a.d, a.d * b.d⟩

def Q.sub (a b : Q) : Q := ⟨a.n * b.d - b.n * a.d, a.d * b.d⟩

def Q.mul (a b : Q) : Q := ⟨a.n * b.n, a.d * b.d⟩

/-- Semantic equality of unnormalized rationals (cross multiplication). -/
def Q.qeq (a b : Q) : Bool := a.n * b.d == b.n * a.d

/-- Semantic order on unnormalized rationals (denominators are nonneg). -/
def Q.qle (a b : Q) : Bool := a.n * b.d ≤ b.n * a.d

def Q.qlt (a b : Q) : Bool := a.n * b.d < b.n * a.d

def Q.isZero (a : Q) : Bool := a.n == 0

/-- Floor of a nonnegative unnormalized rational, as used by
Math.floor(random() * length). -/
def Q.floorNat (a : Q) : Nat := (a.n.tdiv a.d).toNat

/-- Primitive JS values. -/
inductive Prim where
  | str (s : String)
  | num (q : Q)
  | bool (b : Bool)
  | null
  | undef
  | nan
  deriving DecidableEq, Repr

/-- A JS value is a primitive or a reference to a heap object. -/
inductive Val where
  | prim (p : Prim)
  | ref (a : Nat)
  deriving DecidableEq, Repr

/-- A heap object: a plain object (ordered fields, as JS objects keep
insertion order) or an array. -/
inductive HObj where
  | obj (fields : List (String × Val))
  | arr (items : List Val)
  deriving DecidableEq, Repr

/-- The heap: address a is index a of the list; allocation appends. -/
structure Heap where
  data : List HObj
  deriving DecidableEq, Repr

def Heap.get (h : Heap) (a : Nat) : Option HObj := h.data[a]?

def Heap.next (h : Heap) : Nat := h.data.length

def Heap.alloc (h : Heap) (o : HObj) : Val × Heap :=
  (.ref h.data.length, ⟨h.data ++ [o]⟩)

def Heap.set (h : Heap) (a : Nat) (o : HObj) : Heap := ⟨h.data.set a o⟩

/-- Ordered-association-list update with JS Map/object semantics: replace
in place if the key exists, else append. -/
def setAssoc {α : Type} : List (String × α) → String → α → List (String × α)
  | [], k, v => [(k, v)]
  | (k0, v0) :: rest, k, v =>
      if k0 == k then (k0, v) :: rest else (k0, v0) :: setAssoc rest k v

def getAssoc {α : Type} : List (String × α) → String → Option α
  | [], _ => none
  | (k0, v0) :: rest, k => if k0 == k then some v0 else getAssoc rest k

def hasAssoc {α : Type} (l : List (String × α)) (k : String) : Bool :=
  (getAssoc l k).isSome

/-- The mutable Map of execution variables, as an insertion-ordered
association list. -/
abbrev VarMap := List (String × Val)

/-- Merge the entries of m into target in order, as the source loops
"for (const [key, value] of m.entries()) target.set(key, value)". -/
def mergeInto (m target : VarMap) : VarMap :=
  m.foldl (fun t kv => setAssoc t kv.1 kv.2) target

/-! ### JS number formatting and parsing -/

def pow10 : Nat → Nat
  | 0 => 1
  | k + 1 => 10 * pow10 k

/-- Fueled Euclidean gcd (structural, so it reduces in the kernel). -/
def natGcdF : Nat → Nat → Nat → Nat
  | 0, a, _ => a
  | f + 1, a, b => if b == 0 then a else natGcdF f b (a % b)

def natGcd (a b : Nat) : Nat := natGcdF (b + 1) a b

/-- Least k (up to a bound of 40) with den dividing 10 ^ k. -/
def findDecExpAux (den : Nat) : Nat → Nat → Option Nat
  | 0, _ => none
  | f + 1, k => if pow10 k % den == 0 then some k else findDecExpAux den f (k + 1)

def findDecExp (den : Nat) : Option Nat := findDecExpAux den 41 0

def stripZeros (s : List Char) : List Char :=
  (s.reverse.dropWhile (fun c => c == '0')).reverse

def padDigits (k : Nat) (s : List Char) : List Char :=
  List.replicate (k - s.length) '0' ++ s

/-- JS String(n) for a number n.  Terminating decimals (the only number
strings the claims exercise) are rendered exactly; a rational whose
reduced denominator is not of the form 2^a * 5^b cannot arise as the
exact value of a JS double, and gets an unreachable fallback form. -/
def qToString (q : Q) : String :=
  let sgn := if q.n < 0 then "-" else ""
  let na := q.n.natAbs
  let g := natGcd na q.d
  if g == 0 then "0"
  else
    let nn := na / g
    let dd := q.d / g
    if dd == 1 then sgn ++ Nat.repr nn
    else
      match findDecExp dd with
      | some k =>
          let scaled := nn * (pow10 k / dd)
          let ip := scaled / pow10 k
          let fp := scaled % pow10 k
          sgn ++ Nat.repr ip ++ "." ++
            String.mk (stripZeros (padDigits k (Nat.repr fp).data))
      | none => sgn ++ Nat.repr nn ++ "/" ++ Nat.repr dd

def isDigitChar (c : Char) : Bool := '0' ≤ c && c ≤ '9'

/-- The whitespace class of JS String.prototype.trim (ASCII part; the
unicode space characters are not modelled). -/
def jsIsWs (c : Char) : Bool :=
  c == ' ' || c == '\t' || c == '\n' || c == '\r' || c == '\x0b' || c == '\x0c'

/-- JS s.trim(). -/
def jsTrim (s : String) : String :=
  String.mk (((s.data.dropWhile jsIsWs).reverse.dropWhile jsIsWs).reverse)

/-- JS s.startsWith(pre). -/
def strStarts (s pre : String) : Bool := pre.data.isPrefixOf s.data

/-- JS s.endsWith(suf). -/
def strEnds (s suf : String) : Bool := suf.data.isSuffixOf s.data

def digitsToNat (l : List Char) : Nat :=
  l.foldl (fun acc c => 10 * acc + (c.toNat - '0'.toNat)) 0

/-- Parse an unsigned decimal numeral (digits, optionally with one dot,
at least one digit present), as accepted by JS Number(). -/
def parseDecCore (l : List Char) : Option Q :=
  let ip := l.takeWhile isDigitChar
  let rest := l.drop ip.length
  match rest with
  | [] => if ip.isEmpty then none else some (Q.ofNat (digitsToNat ip))
  | '.' :: fp =>
      if fp.all isDigitChar && !(ip.isEmpty && fp.isEmpty) then
        some ⟨Int.ofNat (digitsToNat ip * pow10 fp.length + digitsToNat fp),
              pow10 fp.length⟩
      else none
  | _ => none

/-- JS Number(s) on a string: whitespace-trimmed, empty means 0, else a
signed decimal numeral; none models NaN.  Hexadecimal, exponent and
Infinity forms are not modelled (no claim exercises them). -/
def strToNumOpt (s : String) : Option Q :=
  let t := (jsTrim s).data
  match t with
  | [] => some (Q.ofNat 0)
  | '-' :: rest => (parseDecCore rest).map (fun q => ⟨-q.n, q.d⟩)
  | '+' :: rest => parseDecCore rest
  | _ => parseDecCore t

/-! ### JS value coercions (over the heap) -/

def primIsStr : Prim → Bool
  | .str _ => true
  | _ => false

/-- JS String() on a primitive value. -/
def primToString : Prim → String
  | .str s => s
  | .num q => qToString q
  | .bool b => if b then "true" else "false"
  | .null => "null"
  | .undef => "undefined"
  | .nan => "NaN"

def jsToStringItem (f : Val → String) (v : Val) : String :=
  match v with
  | .prim .null => ""
  | .prim .undef => ""
  | v => f v

def joinComma : List String → String
  | [] => ""
  | [s] => s
  | s :: rest => s ++ "," ++ joinComma rest

/-- JS String() on any value; references are stringified through the
heap (arrays join their elements with commas, rendering null and
undefined as empty; plain objects print as [object Object]). -/
def jsToStringF : Nat → Heap → Val → String
  | _, _, .prim p => primToString p
  | 0, _, .ref _ => ""
  | f + 1, h, .ref a =>
      match h.get a with
      | some (.obj _) => "[object Object]"
      | some (.arr items) =>
          joinComma (items.map (jsToStringItem (jsToStringF f h)))
      | none => ""

def jsToString (h : Heap) (v : Val) : String := jsToStringF (h.next + 1) h v

/-- JS ToPrimitive with the default hint: references become their string
form, primitives stay. -/
def valToPrim (h : Heap) : Val → Prim
  | .prim p => p
  | .ref a => .str (jsToString h (.ref a))

/-- JS ToNumber on a primitive; none models NaN. -/
def primToNum : Prim → Option Q
  | .num q => some q
  | .str s => strToNumOpt s
  | .bool b => some (Q.ofNat (if b then 1 else 0))
  | .null => some (Q.ofNat 0)
  | .undef => none
  | .nan => none

/-- JS Number() on any value (through ToPrimitive for references). -/
def toNumV (h : Heap) (v : Val) : Option Q := primToNum (valToPrim h v)

/-- The JS test !isNaN(Number(x)). -/
def numericLooking (h : Heap) (v : Val) : Bool := (toNumV h v).isSome

/-- JS truthiness. -/
def truthy : Val → Bool
  | .prim (.str s) => !(s == "")
  | .prim (.num q) => !q.isZero
  | .prim (.bool b) => b
  | .prim .null => false
  | .prim .undef => false
  | .prim .nan => false
  | .ref _ => true

/-- JS loose equality on primitives after booleans have been lowered to
numbers and references to strings. -/
def primLooseEq : Prim → Prim → Bool
  | .str s, .str t => s == t
  | .num a, .num b => a.qeq b
  | .num a, .str s =>
      match strToNumOpt s with
      | some b => a.qeq b
      | none => false
  | .str s, .num b =>
      match strToNumOpt s with
      | some a => a.qeq b
      | none => false
  | .null, .null => true
  | .undef, .undef => true
  | .null, .undef => true
  | .undef, .null => true
  | _, _ => false

def lowerBool : Prim → Prim
  | .bool b => .num (Q.ofNat (if b then 1 else 0))
  | p => p

/-- JS loose equality (==).  References are equal only to themselves;
against a primitive they compare through ToPrimitive. -/
def looseEq (h : Heap) (a b : Val) : Bool :=
  match a, b with
  | .ref x, .ref y => x == y
  | _, _ => primLooseEq (lowerBool (valToPrim h a)) (lowerBool (valToPrim h b))

/-- JS relational comparison: both-strings compare lexicographically,
otherwise numerically (false when either side is NaN). -/
def jsLtB (h : Heap) (a b : Val) : Bool :=
  match valToPrim h a, valToPrim h b with
  | .str s, .str t => decide (s < t)
  | pa, pb =>
      match primToNum pa, primToNum pb with
      | some x, some y => x.qlt y
      | _, _ => false

def jsLeB (h : Heap) (a b : Val) : Bool :=
  match valToPrim h a, valToPrim h b with
  | .str s, .str t => decide (s ≤ t)
  | pa, pb =>
      match primToNum pa, primToNum pb with
      | some x, some y => x.qle y
      | _, _ => false

/-- JS + : string concatenation when either ToPrimitive result is a
string, else numeric addition with NaN propagation. -/
def jsAdd (h : Heap) (a b : Val) : Val :=
  let pa := valToPrim h a
  let pb := valToPrim h b
  if primIsStr pa || primIsStr pb then
    .prim (.str (primToString pa ++ primToString pb))
  else
    match primToNum pa, primToNum pb with
    | some x, some y => .prim (.num (x.add y))
    | _, _ => .prim .nan

def jsSub (h : Heap) (a b : Val) : Val :=
  match toNumV h a, toNumV h b with
  | some x, some y => .prim (.num (x.sub y))
  | _, _ => .prim .nan

def jsMul (h : Heap) (a b : Val) : Val :=
  match toNumV h a, toNumV h b with
  | some x, some y => .prim (.num (x.mul y))
  | _, _ => .prim .nan

/-- JS division.  Division by zero yields signed Infinity (or NaN for
0/0) in JS; infinities are collapsed into NaN here, no claim exercises
them. -/
def jsDiv (h : Heap) (a b : Val) : Val :=
  match toNumV h a, toNumV h b with
  | some x, some y =>
      if y.n == 0 then .prim .nan
      else .prim (.num ⟨x.n * y.d * (if y.n < 0 then -1 else 1), x.d * y.n.natAbs⟩)
  | _, _ => .prim .nan

/-- The coercion the source applies on plain = knowledge assignment:
typeof value === string and !isNaN(Number(value)) turns it into a
number. -/
def strNumCoerce (v : Val) : Val :=
  match v with
  | .prim (.str s) =>
      match strToNumOpt s with
      | some q => .prim (.num q)
      | none => .prim (.str s)
  | v => v

/-- The JS idiom x || 0 applied to an optional property or variable
read: absent or falsy becomes the number 0. -/
def jsOrZero (v : Option Val) : Val :=
  match v with
  | none => .prim (.num (Q.ofNat 0))
  | some v => if truthy v then v else .prim (.num (Q.ofNat 0))

/-! ### Seeded random source (Generator.createSeededRandom)

The unseeded branch of the source returns Math.random, an external
entropy source that the embedding does not model; every execution here
is given an integer seed, as in the claims.  The arithmetic is exact
integer arithmetic modulo 2^32; the double-precision rounding JS would
apply inside the intermediate multiplications is not modelled (no claim
depends on particular draw values, only on determinism and on how one
draw is consumed). -/

def uint32 (i : Int) : Nat := (i.emod 4294967296).toNat

/-- One step of the PCG-inspired generator in createSeededRandom:
returns the float in [0,1) (an exact fraction with denominator 2^32)
and the updated state. -/
def rngNext (state : Int) : Q × Int :=
  let s1 : Nat := uint32 (state * 747796405 + 2891336453)
  let shift : Nat := (s1 >>> 28) + 4
  let word : Nat := ((s1 >>> shift) ^^^ s1) * 277803737
  let wu : Nat := word % 4294967296
  let result : Nat := (wu ^^^ (wu >>> 22)) % 4294967296
  (⟨Int.ofNat result, 4294967296⟩, Int.ofNat s1)

/-- Initial generator state for a seed (LCG scramble from the source). -/
def seedInit (seed : Int) : Int := seed * 1664525 + 1013904223

/-! ### Caller-side pure value trees and heap transfer -/

mutual
/-- A pure JSON-like value tree with no references: the shape of the
knowledge object a caller passes to execute, and of deep read-backs out
of the heap. -/
inductive PureVal where
  | prim (p : Prim)
  | obj (fields : PureFields)
  | arr (items : PureItems)

inductive PureFields where
  | nil
  | cons (k : String) (v : PureVal) (rest : PureFields)

inductive PureItems where
  | nil
  | cons (v : PureVal) (rest : PureItems)
end

mutual
/-- Materialize a pure value tree in the heap (children first, so every
reference in the result points to an address allocated by this call). -/
def allocPure : PureVal → Heap → Val × Heap
  | .prim p, h => (.prim p, h)
  | .obj fs, h =>
      let r := allocPureFields fs h
      r.2.alloc (.obj r.1)
  | .arr xs, h =>
      let r := allocPureItems xs h
      r.2.alloc (.arr r.1)

def allocPureFields : PureFields → Heap → List (String × Val) × Heap
  | .nil, h => ([], h)
  | .cons k v rest, h =>
      let r1 := allocPure v h
      let r2 := allocPureFields rest r1.2
      ((k, r1.1) :: r2.1, r2.2)

def allocPureItems : PureItems → Heap → List Val × Heap
  | .nil, h => ([], h)
  | .cons v rest, h =>
      let r1 := allocPure v h
      let r2 := allocPureItems rest r1.2
      (r1.1 :: r2.1, r2.2)
end

def readFieldsF (f : Val → Option PureVal) : List (String × Val) → Option PureFields
  | [] => some .nil
  | (k, v) :: rest =>
      match f v, readFieldsF f rest with
      | some pv, some prest => some (.cons k pv prest)
      | _, _ => none

def readItemsF (f : Val → Option PureVal) : List Val → Option PureItems
  | [] => some .nil
  | v :: rest =>
      match f v, readItemsF f rest with
      | some pv, some prest => some (.cons pv prest)
      | _, _ => none

/-- Deep read of a value out of the heap into a pure tree (none on
dangling references or exhausted fuel; the heaps built here are acyclic
so any sufficiently large fuel succeeds). -/
def readBackF : Nat → Heap → Val → Option PureVal
  | _, _, .prim p => some (.prim p)
  | 0, _, .ref _ => none
  | f + 1, h, .ref a =>
      match h.get a with
      | some (.obj fields) => (readFieldsF (readBackF f h) fields).map .obj
      | some (.arr items) => (readItemsF (readBackF f h) items).map .arr
      | none => none

/-- JSON.stringify-then-parse semantics, read side: like readBackF but
NaN becomes null, object fields holding undefined are dropped, and
array items holding undefined become null (as JSON.stringify does). -/
def jsonSanitizeFields (l : PureFields) : PureFields :=
  match l with
  | .nil => .nil
  | .cons _ (.prim .undef) rest => jsonSanitizeFields rest
  | .cons k v rest => .cons k v (jsonSanitizeFields rest)

def jsonFieldsF (f : Val → Option PureVal) : List (String × Val) → Option PureFields
  | [] => some .nil
  | (_, .prim .undef) :: rest => jsonFieldsF f rest
  | (k, v) :: rest =>
      match f v, jsonFieldsF f rest with
      | some pv, some prest => some (.cons k pv prest)
      | _, _ => none

def jsonItemsF (f : Val → Option PureVal) : List Val → Option PureItems
  | [] => some .nil
  | .prim .undef :: rest =>
      match jsonItemsF f rest with
      | some prest => some (.cons (.prim .null) prest)
      | none => none
  | v :: rest =>
      match f v, jsonItemsF f rest with
      | some pv, some prest => some (.cons pv prest)
      | _, _ => none

def jsonReadF : Nat → Heap → Val → Option PureVal
  | _, _, .prim .nan => some (.prim .null)
  | _, _, .prim p => some (.prim p)
  | 0, _, .ref _ => none
  | f + 1, h, .ref a =>
      match h.get a with
      | some (.obj fields) => (jsonFieldsF (jsonReadF f h) fields).map .obj
      | some (.arr items) => (jsonItemsF (jsonReadF f h) items).map .arr
      | none => none

/-- The deep clone JSON.parse(JSON.stringify(k)) from assignToKnowledge:
serialize the value reachable from v to a pure tree, then materialize a
completely fresh copy. -/
def jsonClone (h : Heap) (v : Val) : Option (Val × Heap) :=
  match jsonReadF (h.next + 1) h v with
  | some pure => some (allocPure pure h)
  | none => none

/-- The own enumerable entries of a value, as the object spread operator
sees them: object fields, array items under index keys, none for
primitives. -/
def spreadFields (h : Heap) (v : Val) : List (String × Val) :=
  match v with
  | .prim _ => []
  | .ref a =>
      match h.get a with
      | some (.obj fields) => fields
      | some (.arr items) =>
          (List.range items.length).zip items |>.map
            (fun p => (Nat.repr p.1, p.2))
      | none => []

/-! ### Errors -/

/-- Failure modes: ParseError and EvaluationError from src/types.ts, the
TypeError JS raises on illegal primitive operations, and exhaustion of
the recursion fuel (modelling nontermination / stack overflow). -/
inductive Err where
  | parseErr (msg : String) (line col : Nat)
  | evalErr (msg : String)
  | typeErr (msg : String)
  | fuelErr
  deriving DecidableEq, Repr

/-- The message of an error, as the catch-and-rewrap in
VariableReference.evaluate reads it. -/
def Err.message : Err → String
  | .parseErr m _ _ => m
  | .evalErr m => m
  | .typeErr m => m
  | .fuelErr => "fuel exhausted"

/-! ### Lexer (parser/lexer.ts) -/

inductive TokTy where
  | newline | lparen | rparen | lbracket | rbracket | dot | comma | pipe
  | question | semicolon | dollar | plus | plusAssign | minus | minusAssign
  | multiply | divide | assignTok | equalsTok | exclamation | notEquals
  | lessThan | lessEqual | greaterThan | greaterEqual | assignOp
  | doubleColon | colon | strTok | numTok | ident | eofTok
  deriving DecidableEq, Repr

structure Token where
  ty : TokTy
  value : String
  line : Nat
  col : Nat
  deriving DecidableEq, Repr

def isAlphaChar (c : Char) : Bool :=
  ('a' ≤ c && c ≤ 'z') || ('A' ≤ c && c ≤ 'Z') || c == '_'

def isAlphaNumChar (c : Char) : Bool := isAlphaChar c || isDigitChar c

/-- Position update of Lexer.advance for one consumed character. -/
def charAdvance (line col : Nat) (c : Char) : Nat × Nat :=
  if c == '\n' then (line + 1, 1) else (line, col + 1)

/-- Scan a quoted string body (Lexer.string).  The source never advances
past a raw newline inside a string (it only bumps the line counter), so
that input loops forever; here the fuel runs out. -/
def scanStrF : Nat → Char → Nat → Nat → List Char → Nat → Nat → String →
    Except Err (String × List Char × Nat × Nat)
  | 0, _, _, _, _, _, _, _ => .error .fuelErr
  | _ + 1, _, sl, sc, [], _, _, _ =>
      .error (.parseErr "Unterminated string" sl sc)
  | f + 1, quote, sl, sc, c :: rest, line, col, acc =>
      if c == quote then
        let lc := charAdvance line col c
        .ok (acc, rest, lc.1, lc.2)
      else if c == '\n' then
        scanStrF f quote sl sc (c :: rest) (line + 1) 0 acc
      else if c == '\\' then
        match rest with
        | [] =>
            .error (.parseErr "Unterminated string" sl sc)
        | e :: rest2 =>
            let lc1 := charAdvance line col c
            let lc2 := charAdvance lc1.1 lc1.2 e
            let ech : String :=
              if e == 'n' then "\n"
              else if e == 't' then "\t"
              else if e == 'r' then "\r"
              else String.mk [e]
            scanStrF f quote sl sc rest2 lc2.1 lc2.2 (acc ++ ech)
      else
        let lc := charAdvance line col c
        scanStrF f quote sl sc rest lc.1 lc.2 (acc ++ String.mk [c])

/-- Lexer.nextToken on a nonempty character stream: produce one token
plus the rest of the stream and the updated position. -/
def nextTok : List Char → Nat → Nat → Except Err (Token × List Char × Nat × Nat)
  | [], line, col => .ok (⟨.eofTok, "", line, col⟩, [], line, col)
  | c :: rest, line, col =>
      let one : TokTy → Except Err (Token × List Char × Nat × Nat) := fun ty =>
        let lc := charAdvance line col c
        .ok (⟨ty, String.mk [c], line, col⟩, rest, lc.1, lc.2)
      let two : TokTy → String → Except Err (Token × List Char × Nat × Nat) := fun ty s =>
        .ok (⟨ty, s, line, col⟩, rest.drop 1, line, col + 2)
      let nextIs : Char → Bool := fun e =>
        match rest with
        | [] => false
        | d :: _ => d == e
      if c == '\n' then one .newline
      else if c == '(' then one .lparen
      else if c == ')' then one .rparen
      else if c == '[' then one .lbracket
      else if c == ']' then one .rbracket
      else if c == '.' then one .dot
      else if c == ',' then one .comma
      else if c == '|' then one .pipe
      else if c == '?' then one .question
      else if c == ';' then one .semicolon
      else if c == '$' then one .dollar
      else if c == '+' then
        if nextIs '=' then two .plusAssign "+=" else one .plus
      else if c == '-' then
        if nextIs '=' then two .minusAssign "-=" else one .minus
      else if c == '*' then one .multiply
      else if c == '/' then one .divide
      else if c == '=' then
        if nextIs '=' then two .equalsTok "==" else one .assignTok
      else if c == '!' then
        if nextIs '=' then two .notEquals "!=" else one .exclamation
      else if c == '<' then
        if nextIs '=' then two .lessEqual "<=" else one .lessThan
      else if c == '>' then
        if nextIs '=' then two .greaterEqual ">=" else one .greaterThan
      else if c == ':' then
        if nextIs '=' then two .assignOp ":="
        else if nextIs ':' then two .doubleColon "::"
        else one .colon
      else if c == '"' || c == '\x27' then
        let lc := charAdvance line col c
        match scanStrF (rest.length + 1) c line col rest lc.1 lc.2 "" with
        | .error e => .error e
        | .ok (s, rest2, l2, c2) => .ok (⟨.strTok, s, line, col⟩, rest2, l2, c2)
      else if isDigitChar c then
        let ds := (c :: rest).takeWhile isDigitChar
        let after := (c :: rest).drop ds.length
        match after with
        | '.' :: d :: _ =>
            if isDigitChar d then
              let fs := (after.drop 1).takeWhile isDigitChar
              let text := String.mk ds ++ "." ++ String.mk fs
              .ok (⟨.numTok, text, line, col⟩, after.drop (1 + fs.length), line,
                   col + ds.length + 1 + fs.length)
            else
              .ok (⟨.numTok, String.mk ds, line, col⟩, after, line, col + ds.length)
        | _ => .ok (⟨.numTok, String.mk ds, line, col⟩, after, line, col + ds.length)
      else if isAlphaChar c then
        let ds := (c :: rest).takeWhile isAlphaNumChar
        .ok (⟨.ident, String.mk ds, line, col⟩, (c :: rest).drop ds.length, line,
             col + ds.length)
      else
        .error (.parseErr ("Unexpected character " ++ String.mk [c]) line col)

/-- Lexer.tokenize: skip whitespace and comments, scan tokens, end with
an EOF token carrying the final position. -/
def tokenizeF : Nat → List Char → Nat → Nat → Except Err (List Token)
  | 0, _, _, _ => .error .fuelErr
  | _ + 1, [], line, col => .ok [⟨.eofTok, "", line, col⟩]
  | f + 1, c :: rest, line, col =>
      if c == ' ' || c == '\r' || c == '\t' then tokenizeF f rest line (col + 1)
      else if c == '#' then
        let com := rest.takeWhile (fun d => !(d == '\n'))
        tokenizeF f (rest.drop com.length) line (col + 1 + com.length)
      else
        match nextTok (c :: rest) line col with
        | .error e => .error e
        | .ok (tok, rest2, l2, c2) =>
            match tokenizeF f rest2 l2 c2 with
            | .error e => .error e
            | .ok toks => .ok (tok :: toks)

def tokenize (input : String) : Except Err (List Token) :=
  tokenizeF (input.data.length + 1) input.data 1 1

/-! ### AST (ast/nodes.ts) -/

/-- Assignment operators = += -=. -/
inductive AOp where
  | assignEq | plusAssign | minusAssign
  deriving DecidableEq, Repr

/-- Binary operators of BinaryExpression. -/
inductive BOp where
  | add | sub | mul | div | eq | ne | lt | gt | le | ge
  deriving DecidableEq, Repr

/-- AST nodes.  Literal holds string or number (the parser always stores
the token text, a string); Assignment's target is the path and
isKnowledge flag of its VariableReference target. -/
inductive Node where
  | lit (value : Prim)
  | varRef (path : List String) (isKnowledge : Bool)
  | ruleRef (name : String)
  | assign (targetPath : List String) (targetIsKnowledge : Bool)
      (op : AOp) (expr : Node)
  | binop (left : Node) (op : BOp) (right : Node)
  | cond (c : Node) (t : Node) (e : Option Node)
  | silent (inner : Node)
  | compound (exprs : List Node)

/-- One alternative of a rule: elements plus selection weight. -/
structure Alt where
  elements : List Node
  weight : Q

/-- A named rule with its alternatives. -/
structure RuleT where
  name : String
  alternatives : List Alt

/-- A parsed grammar: rule name to rule, in insertion order (Map.set
replaces in place, so a duplicate rule name keeps the last definition). -/
structure GrammarT where
  rules : List (String × RuleT)

/-! ### Parser (parser/parser.ts) -/

def dummyTok : Token := ⟨.eofTok, "", 0, 0⟩

def peekT (toks : List Token) (i : Nat) : Token := (toks[i]?).getD dummyTok

def prevT (toks : List Token) (i : Nat) : Token := (toks[i - 1]?).getD dummyTok

def isAtEndT (toks : List Token) (i : Nat) : Bool := (peekT toks i).ty == .eofTok

def checkT (toks : List Token) (i : Nat) (ty : TokTy) : Bool :=
  !isAtEndT toks i && (peekT toks i).ty == ty

/-- Parser.match over a set of token types: on success returns the
consumed token and the advanced index. -/
def matchT (toks : List Token) (i : Nat) (tys : List TokTy) : Option (Token × Nat) :=
  if tys.any (fun ty => checkT toks i ty) then some (peekT toks i, i + 1) else none

/-- Parser.consume: the expected type or a ParseError at the offending
token. -/
def consumeT (toks : List Token) (i : Nat) (ty : TokTy) (msg : String) :
    Except Err (Token × Nat) :=
  if checkT toks i ty then .ok (peekT toks i, i + 1)
  else .error (.parseErr msg (peekT toks i).line (peekT toks i).col)

/-- Parser.advance: moves unless at EOF and returns the token it moved
over (at EOF, the token before the EOF token). -/
def advanceT (toks : List Token) (i : Nat) : Token × Nat :=
  if isAtEndT toks i then (prevT toks i, i) else (peekT toks i, i + 1)

/-- JS parseFloat restricted to the text of NUMBER tokens (digits with
at most one interior dot), on which it is exact; other inputs cannot
reach it in parseAlternative. -/
def parseFloatQ (s : String) : Q :=
  match parseDecCore s.data with
  | some q => q
  | none => ⟨0, 1⟩

/-- Dotted-path tail: repeatedly match a dot and consume an identifier
(the loops in parseDollarExpression). -/
def parseDotsF : Nat → List Token → Nat → List String →
    Except Err (List String × Nat)
  | 0, _, _, _ => .error .fuelErr
  | f + 1, toks, i, acc =>
      match matchT toks i [.dot] with
      | none => .ok (acc, i)
      | some (_, i1) =>
          match consumeT toks i1 .ident "Expected property name after ." with
          | .error e => .error e
          | .ok (t, i2) => parseDotsF f toks i2 (acc ++ [t.value])

/-- Parser.isInExpressionContext: the lookahead token is an operator or
closing paren. -/
def isInExprCtx (toks : List Token) (i : Nat) : Bool :=
  let ty := (peekT toks i).ty
  ty == .plus || ty == .minus || ty == .multiply || ty == .divide ||
  ty == .equalsTok || ty == .notEquals || ty == .greaterThan ||
  ty == .lessThan || ty == .greaterEqual || ty == .lessEqual ||
  ty == .rparen || ty == .assignTok || ty == .plusAssign || ty == .minusAssign

/-- Parser.parseDollarExpression (the first dollar is already
consumed). -/
def parseDollarF : Nat → List Token → Nat → Except Err (Node × Nat)
  | 0, _, _ => .error .fuelErr
  | f + 1, toks, i =>
      match matchT toks i [.dollar] with
      | some (_, i1) =>
          match consumeT toks i1 .dot "Expected . after $$" with
          | .error e => .error e
          | .ok (_, i2) =>
              match consumeT toks i2 .ident "Expected property name after $$." with
              | .error e => .error e
              | .ok (t, i3) =>
                  match parseDotsF f toks i3 ["$", t.value] with
                  | .error e => .error e
                  | .ok (path, i4) => .ok (.varRef path true, i4)
      | none =>
          match consumeT toks i .ident "Expected identifier after $" with
          | .error e => .error e
          | .ok (idt, i1) =>
              match matchT toks i1 [.dot] with
              | some (_, i2) =>
                  match consumeT toks i2 .ident "Expected property name after ." with
                  | .error e => .error e
                  | .ok (t2, i3) =>
                      match parseDotsF f toks i3 [idt.value, t2.value] with
                      | .error e => .error e
                      | .ok (path, i4) => .ok (.varRef path false, i4)
              | none =>
                  if isInExprCtx toks i1 then .ok (.varRef [idt.value] false, i1)
                  else .ok (.ruleRef idt.value, i1)

def tokToAOp (ty : TokTy) : AOp :=
  if ty == .plusAssign then .plusAssign
  else if ty == .minusAssign then .minusAssign
  else .assignEq

def tokToBOp (ty : TokTy) : BOp :=
  if ty == .plus then .add
  else if ty == .minus then .sub
  else if ty == .multiply then .mul
  else if ty == .divide then .div
  else if ty == .equalsTok then .eq
  else if ty == .notEquals then .ne
  else if ty == .lessThan then .lt
  else if ty == .greaterThan then .gt
  else if ty == .lessEqual then .le
  else .ge

/-- Left-associative binary-operator loop shared by the comparison,
additive and multiplicative levels. -/
def binLoopF (sub : List Token → Nat → Except Err (Node × Nat)) :
    Nat → List TokTy → Node → List Token → Nat → Except Err (Node × Nat)
  | 0, _, _, _, _ => .error .fuelErr
  | f + 1, ops, left, toks, i =>
      match matchT toks i ops with
      | none => .ok (left, i)
      | some (opTok, i1) =>
          match sub toks i1 with
          | .error e => .error e
          | .ok (right, i2) =>
              binLoopF sub f ops (.binop left (tokToBOp opTok.ty) right) toks i2

/-- The expression-precedence ladder as one fueled function.  Levels:
0 parseExpression/parseConditional, 1 parseAssignment, 2 parseComparison,
3 parseAddition, 4 parseMultiplication, 5 parsePrimary. -/
def parseExprF : Nat → Nat → List Token → Nat → Except Err (Node × Nat)
  | 0, _, _, _ => .error .fuelErr
  | f + 1, 0, toks, i =>
      match parseExprF f 1 toks i with
      | .error e => .error e
      | .ok (e, i1) =>
          match matchT toks i1 [.question] with
          | none => .ok (e, i1)
          | some (_, i2) =>
              match parseExprF f 1 toks i2 with
              | .error er => .error er
              | .ok (tv, i3) =>
                  match matchT toks i3 [.pipe] with
                  | none => .ok (.cond e tv none, i3)
                  | some (_, i4) =>
                      match parseExprF f 1 toks i4 with
                      | .error er => .error er
                      | .ok (fv, i5) => .ok (.cond e tv (some fv), i5)
  | f + 1, 1, toks, i =>
      match parseExprF f 2 toks i with
      | .error e => .error e
      | .ok (e, i1) =>
          match matchT toks i1 [.assignTok, .plusAssign, .minusAssign] with
          | none => .ok (e, i1)
          | some (opTok, i2) =>
              match parseExprF f 1 toks i2 with
              | .error er => .error er
              | .ok (right, i3) =>
                  match e with
                  | .varRef p ik => .ok (.assign p ik (tokToAOp opTok.ty) right, i3)
                  | _ =>
                      .ok (.assign ["temp_" ++ Nat.repr i3] false
                             (tokToAOp opTok.ty) right, i3)
  | f + 1, 2, toks, i =>
      match parseExprF f 3 toks i with
      | .error e => .error e
      | .ok (e, i1) =>
          binLoopF (parseExprF f 3) f
            [.equalsTok, .notEquals, .greaterThan, .greaterEqual,
             .lessThan, .lessEqual] e toks i1
  | f + 1, 3, toks, i =>
      match parseExprF f 4 toks i with
      | .error e => .error e
      | .ok (e, i1) => binLoopF (parseExprF f 4) f [.plus, .minus] e toks i1
  | f + 1, 4, toks, i =>
      match parseExprF f 5 toks i with
      | .error e => .error e
      | .ok (e, i1) => binLoopF (parseExprF f 5) f [.multiply, .divide] e toks i1
  | f + 1, _, toks, i =>
      match matchT toks i [.numTok] with
      | some (t, i1) => .ok (.lit (.str t.value), i1)
      | none =>
      match matchT toks i [.strTok] with
      | some (t, i1) => .ok (.lit (.str t.value), i1)
      | none =>
      match matchT toks i [.dollar] with
      | some (_, i1) => parseDollarF f toks i1
      | none =>
      match matchT toks i [.ident] with
      | some (t, i1) => .ok (.lit (.str t.value), i1)
      | none =>
      match matchT toks i [.lparen] with
      | some (_, i1) =>
          match parseExprF f 0 toks i1 with
          | .error e => .error e
          | .ok (e, i2) =>
              match consumeT toks i2 .rparen "Expected ) after expression" with
              | .error er => .error er
              | .ok (_, i3) => .ok (e, i3)
      | none =>
          .error (.parseErr
            ("Unexpected token in expression: " ++ (peekT toks i).value)
            (peekT toks i).line (peekT toks i).col)

/-- The do-while loop over semicolon-separated expressions in
parseBracketedExpression. -/
def parseCompoundListF : Nat → Nat → List Token → Nat → List Node →
    Except Err (List Node × Nat)
  | 0, _, _, _, _ => .error .fuelErr
  | f + 1, ef, toks, i, acc =>
      match parseExprF ef 0 toks i with
      | .error e => .error e
      | .ok (e, i1) =>
          match matchT toks i1 [.semicolon] with
          | none => .ok (acc ++ [e], i1)
          | some (_, i2) => parseCompoundListF f ef toks i2 (acc ++ [e])

/-- Parser.parseBracketedExpression (the opening bracket is already
consumed). -/
def parseBracketedF : Nat → List Token → Nat → Except Err (Node × Nat)
  | 0, _, _ => .error .fuelErr
  | f + 1, toks, i =>
      let silentAndIdx :=
        match matchT toks i [.exclamation] with
        | some (_, i1) => (true, i1)
        | none => (false, i)
      match parseCompoundListF f f toks silentAndIdx.2 [] with
      | .error e => .error e
      | .ok (exprs, i2) =>
          match consumeT toks i2 .rbracket "Expected ] after bracketed expression" with
          | .error e => .error e
          | .ok (_, i3) =>
              let result : Node :=
                match exprs with
                | [e] => e
                | _ => .compound exprs
              .ok (if silentAndIdx.1 then .silent result else result, i3)

/-- Parser.parseElement. -/
def parseElementF : Nat → List Token → Nat → Except Err (Node × Nat)
  | 0, _, _ => .error .fuelErr
  | f + 1, toks, i =>
      match matchT toks i [.lbracket] with
      | some (_, i1) => parseBracketedF f toks i1
      | none =>
      match matchT toks i [.dollar] with
      | some (_, i1) => parseDollarF f toks i1
      | none =>
      if checkT toks i .strTok then
        let a := advanceT toks i
        .ok (.lit (.str a.1.value), a.2)
      else if checkT toks i .numTok then
        let a := advanceT toks i
        .ok (.lit (.str a.1.value), a.2)
      else if checkT toks i .ident then
        let a := advanceT toks i
        .ok (.lit (.str a.1.value), a.2)
      else
        let a := advanceT toks i
        if !(a.1.ty == .eofTok) then .ok (.lit (.str a.1.value), a.2)
        else
          .error (.parseErr ("Unexpected token: " ++ (peekT toks a.2).value)
            (peekT toks a.2).line (peekT toks a.2).col)

/-- Parser.isStartOfNextRule: dollar, identifier, := lookahead. -/
def isStartOfNextRuleT (toks : List Token) (i : Nat) : Bool :=
  checkT toks i .dollar &&
  ((toks[i + 1]?).getD dummyTok).ty == .ident &&
  ((toks[i + 2]?).getD dummyTok).ty == .assignOp

/-- The element loop of Parser.parseAlternative.  Returns the elements
and the weight (1.0 unless a double-colon weight marker was consumed,
which also ends the loop). -/
def parseAltLoopF : Nat → List Token → Nat → List Node → Q →
    Except Err (List Node × Q × Nat)
  | 0, _, _, _, _ => .error .fuelErr
  | f + 1, toks, i, acc, w =>
      if !(isAtEndT toks i) && !(checkT toks i .pipe) &&
          !(isStartOfNextRuleT toks i) then
        match matchT toks i [.newline] with
        | some (_, i1) => parseAltLoopF f toks i1 (acc ++ [.lit (.str "\n")]) w
        | none =>
            match parseElementF f toks i with
            | .error e => .error e
            | .ok (el, i1) =>
                let acc1 := acc ++ [el]
                match matchT toks i1 [.doubleColon] with
                | some (_, i2) =>
                    if checkT toks i2 .numTok then
                      let a := advanceT toks i2
                      .ok (acc1, parseFloatQ a.1.value, a.2)
                    else parseAltLoopF f toks i2 acc1 w
                | none => parseAltLoopF f toks i1 acc1 w
      else .ok (acc, w, i)

/-- Parser.parseAlternative. -/
def parseAlternativeF (f : Nat) (toks : List Token) (i : Nat) :
    Except Err (Alt × Nat) :=
  match parseAltLoopF f toks i [] ⟨1, 1⟩ with
  | .error e => .error e
  | .ok (elements, w, i1) =>
      match elements with
      | [] => .error (.parseErr "Empty alternative"
                (peekT toks i1).line (peekT toks i1).col)
      | _ => .ok (⟨elements, w⟩, i1)

/-- The pipe loop of Parser.parseAlternatives. -/
def parseAlternativesLoopF : Nat → List Token → Nat → List Alt →
    Except Err (List Alt × Nat)
  | 0, _, _, _ => .error .fuelErr
  | f + 1, toks, i, acc =>
      match matchT toks i [.pipe] with
      | none => .ok (acc, i)
      | some (_, i1) =>
          match parseAlternativeF f toks i1 with
          | .error e => .error e
          | .ok (alt, i2) => parseAlternativesLoopF f toks i2 (acc ++ [alt])

/-- Parser.parseAlternatives. -/
def parseAlternativesF (f : Nat) (toks : List Token) (i : Nat) :
    Except Err (List Alt × Nat) :=
  match parseAlternativeF f toks i with
  | .error e => .error e
  | .ok (alt, i1) => parseAlternativesLoopF f toks i1 [alt]

/-- Parser.parseRule. -/
def parseRuleF (f : Nat) (toks : List Token) (i : Nat) :
    Except Err (RuleT × Nat) :=
  match consumeT toks i .dollar "Expected $ before rule name" with
  | .error e => .error e
  | .ok (_, i1) =>
      match consumeT toks i1 .ident "Expected rule name after $" with
      | .error e => .error e
      | .ok (nameTok, i2) =>
          match consumeT toks i2 .assignOp "Expected := after rule name" with
          | .error e => .error e
          | .ok (_, i3) =>
              match parseAlternativesF f toks i3 with
              | .error e => .error e
              | .ok (alts, i4) => .ok (⟨nameTok.value, alts⟩, i4)

def skipNewlinesF : Nat → List Token → Nat → Nat
  | 0, _, i => i
  | f + 1, toks, i =>
      match matchT toks i [.newline] with
      | some (_, i1) => skipNewlinesF f toks i1
      | none => i

/-- The rule loop of Parser.parse. -/
def parseGrammarLoopF : Nat → List Token → Nat → List (String × RuleT) →
    Except Err (List (String × RuleT))
  | 0, _, _, _ => .error .fuelErr
  | f + 1, toks, i, rules =>
      let i1 := skipNewlinesF (f + 1) toks i
      if isAtEndT toks i1 then .ok rules
      else
        match parseRuleF f toks i1 with
        | .error e => .error e
        | .ok (rule, i2) => parseGrammarLoopF f toks i2 (setAssoc rules rule.name rule)

/-- Parser.parse: rules in order, error when none. -/
def parseGrammar (f : Nat) (toks : List Token) : Except Err GrammarT :=
  match parseGrammarLoopF f toks 0 [] with
  | .error e => .error e
  | .ok [] => .error (.parseErr "No rules found" 1 1)
  | .ok rules => .ok ⟨rules⟩

/-- Generator.compile: tokenize then parse.  The fuel is a crude upper
bound on the recursion the parser can perform on this token list; every
theorem about compile holds for whatever fuel it uses. -/
def compile (grammar : String) : Except Err GrammarT :=
  match tokenize grammar with
  | .error e => .error e
  | .ok toks => parseGrammar ((toks.length + 4) * (toks.length + 4) * 8) toks

/-! ### Evaluator (the evaluate methods of ast/nodes.ts)

Evaluation state is the heap plus the random-generator state; the
variable Map is threaded separately because the source copies it at
specific points.  Every evaluation function returns, along with value
and updated knowledge, the final state of the variable Map OBJECT that
was passed to it, which is how the in-place Map mutation of the source
is represented.  Node evaluation is fuel-indexed; helper loops receive
the one-step-smaller evaluator as a closure ev. -/

structure St where
  heap : Heap
  rng : Int
  deriving DecidableEq, Repr

abbrev EvalRes := Except Err (Val × Val × VarMap × St)

abbrev NodeEval := Node → Val → VarMap → St → EvalRes

def trimIfStr (v : Val) : Val :=
  match v with
  | .prim (.str s) => .prim (.str (jsTrim s))
  | v => v

/-- typeof x === number in JS is true for finite numbers and NaN. -/
def primNumTy (v : Val) : Option (Option Q) :=
  match v with
  | .prim (.num q) => some (some q)
  | .prim .nan => some none
  | _ => none

/-- The punctuation class of Alternative.evaluate. -/
def startsWithPunct (s : String) : Bool :=
  match s.data with
  | [] => false
  | c :: _ =>
      c == '.' || c == ',' || c == '!' || c == '?' || c == ';' || c == ':'

/-- The (smaller) punctuation class of ConditionalExpression's compound
branch join. -/
def startsWithCondPunct (s : String) : Bool :=
  match s.data with
  | [] => false
  | c :: _ => c == '.' || c == ',' || c == '!' || c == '?'

/-- The element loop of Alternative.evaluate: strictly left to right,
threading knowledge, the working variable map and the random state, and
accumulating output text with the prose-spacing rule. -/
def evalElemsF (ev : NodeEval) : Nat → List Node → String → Bool → Val →
    VarMap → St → Except Err (String × Val × VarMap × St)
  | 0, _, _, _, _, _, _ => .error .fuelErr
  | _ + 1, [], result, _, k, cur, st => .ok (result, k, cur, st)
  | f + 1, el :: rest, result, needsSpace, k, cur, st =>
      match ev el k cur st with
      | .error e => .error e
      | .ok (v, k1, curOut, st1) =>
          -- the copy-back loop writes elementContext.variables onto
          -- currentVariables, which are one and the same map: a no-op
          if v == .prim .null || v == .prim .undef || v == .prim (.str "") then
            evalElemsF ev f rest result needsSpace k1 curOut st1
          else
            let valueStr := jsToString st1.heap v
            let result1 :=
              if needsSpace && !(valueStr == "\n") && !(strStarts valueStr "\n")
                  && !(result == "") && !(strEnds result "\n")
                  && !(startsWithPunct valueStr) then
                result ++ " "
              else result
            evalElemsF ev f rest (result1 ++ valueStr) true k1 curOut st1

/-- Alternative.evaluate: runs the element loop on a copy of the
caller's variable map (so the caller's map itself comes back
unchanged). -/
def evalAltF (ev : NodeEval) (f : Nat) (alt : Alt) (k : Val) (vars : VarMap)
    (st : St) : EvalRes :=
  -- currentVariables = new Map(context.variables): the working map
  -- starts as a copy with the same entries
  match evalElemsF ev f alt.elements "" false k vars st with
  | .error e => .error e
  | .ok (result, k1, _, st1) => .ok (.prim (.str result), k1, vars, st1)

/-- Evaluating a chosen alternative in selectWeightedAlternative: the
alternative gets a fresh copy of the variable map, and the final
entries of that copy are then written back into the caller's map. -/
def evalChosenAltF (ev : NodeEval) (f : Nat) (alt : Alt) (k : Val)
    (vars : VarMap) (st : St) : EvalRes :=
  -- altContext = { ...context, variables: new Map(context.variables) }
  match evalAltF ev f alt k vars st with
  | .error e => .error e
  | .ok (v, k1, altVarsOut, st1) =>
      -- for (const [key, value] of altContext.variables.entries())
      --   context.variables.set(key, value)
      .ok (v, k1, mergeInto altVarsOut vars, st1)

def sumWeights (alts : List Alt) : Q :=
  alts.foldl (fun s a => s.add a.weight) ⟨0, 1⟩

/-- The cumulative-weight walk of selectWeightedAlternative, with the
fallback to the last alternative. -/
def selectLoopF (ev : NodeEval) (f : Nat) :
    List Alt → Q → Q → List Alt → Val → VarMap → St → EvalRes
  | [], _, _, allAlts, k, vars, st =>
      match allAlts.getLast? with
      | some alt => evalChosenAltF ev f alt k vars st
      | none => .error (.typeErr "Cannot read properties of undefined")
  | alt :: rest, random, cw, allAlts, k, vars, st =>
      let cw1 := cw.add alt.weight
      if random.qle cw1 then evalChosenAltF ev f alt k vars st
      else selectLoopF ev f rest random cw1 allAlts k vars st

/-- Rule.selectWeightedAlternative: one draw scaled by the weight sum,
then the cumulative walk. -/
def selectWeightedF (ev : NodeEval) (f : Nat) (alts : List Alt) (k : Val)
    (vars : VarMap) (st : St) : EvalRes :=
  let total := sumWeights alts
  let draw := rngNext st.rng
  let random := draw.1.mul total
  selectLoopF ev f alts random ⟨0, 1⟩ alts k vars ⟨st.heap, draw.2⟩

/-- Rule.evaluate: no alternatives is an error, exactly one evaluates
directly against the caller's context, several select by weight. -/
def evalRuleF (ev : NodeEval) (f : Nat) (rule : RuleT) (k : Val)
    (vars : VarMap) (st : St) : EvalRes :=
  match rule.alternatives with
  | [] => .error (.evalErr ("Rule " ++ rule.name ++ " has no alternatives"))
  | [alt] => evalAltF ev f alt k vars st
  | alts => selectWeightedF ev f alts k vars st

/-- CompoundExpression.evaluate loop: threads the working copy of the
variable map and writes every entry through to the parent map after
each step. -/
def evalCompoundF (ev : NodeEval) : Nat → List Node → Val → Val →
    VarMap → VarMap → St → Except Err (Val × Val × VarMap × VarMap × St)
  | 0, _, _, _, _, _, _ => .error .fuelErr
  | _ + 1, [], last, k, cur, parent, st => .ok (last, k, cur, parent, st)
  | f + 1, e :: rest, _, k, cur, parent, st =>
      match ev e k cur st with
      | .error er => .error er
      | .ok (v, k1, curOut, st1) =>
          evalCompoundF ev f rest v k1 curOut (mergeInto curOut parent) st1

/-- The sequential evaluation of a compound branch inside
ConditionalExpression.evaluateBranch: every sub-expression sees the
same knowledge snapshot, while the variable map and random state
thread. -/
def condMapF (ev : NodeEval) : Nat → List Node → Val → VarMap → St →
    Except Err (List (Val × Val) × VarMap × St)
  | 0, _, _, _, _ => .error .fuelErr
  | _ + 1, [], _, vars, st => .ok ([], vars, st)
  | f + 1, e :: rest, k, vars, st =>
      match ev e k vars st with
      | .error er => .error er
      | .ok (v, k1, vars1, st1) =>
          match condMapF ev f rest k vars1 st1 with
          | .error er => .error er
          | .ok (results, vars2, st2) => .ok ((v, k1) :: results, vars2, st2)

/-- The output-joining reduce of ConditionalExpression.evaluateBranch.
A non-string sub-value reached with a nonempty, non-space-ending
accumulator hits value.startsWith and raises a TypeError, as in JS. -/
def condJoinF (h : Heap) : List (Val × Val) → String → Except Err String
  | [], acc => .ok acc
  | (v, _) :: rest, acc =>
      if !(acc == "") && !(strEnds acc " ") then
        match v with
        | .prim (.str s) =>
            if strStarts s " " || startsWithCondPunct s then
              condJoinF h rest (acc ++ s)
            else condJoinF h rest (acc ++ " " ++ s)
        | _ => .error (.typeErr "value.startsWith is not a function")
      else condJoinF h rest (acc ++ jsToString h v)

/-- The spread merge { ...acc, ...k } allocates a fresh object whose
fields are acc's overridden by k's. -/
def spreadMerge (h : Heap) (a b : Val) : Val × Heap :=
  h.alloc (.obj (mergeInto (spreadFields h b) (spreadFields h a)))

/-- The knowledge-merging reduce of
ConditionalExpression.evaluateBranch. -/
def condKMergeF : List (Val × Val) → Val → Heap → Val × Heap
  | [], acc, h => (acc, h)
  | (_, rk) :: rest, acc, h =>
      let m := spreadMerge h acc rk
      condKMergeF rest m.1 m.2

/-- ConditionalExpression.evaluateBranch: compound branches get the
special join-and-shallow-merge treatment, every other branch evaluates
normally. -/
def evalBranchF (ev : NodeEval) (f : Nat) (branch : Node) (k : Val)
    (vars : VarMap) (st : St) : EvalRes :=
  match branch with
  | .compound exprs =>
      match condMapF ev f exprs k vars st with
      | .error e => .error e
      | .ok (results, vars2, st2) =>
          match condJoinF st2.heap results "" with
          | .error e => .error e
          | .ok combined =>
              let merged := condKMergeF results k st2.heap
              .ok (.prim (.str combined), merged.1, vars2, ⟨merged.2, st2.rng⟩)
  | _ => ev branch k vars st

/-! ### Assignment (Assignment.assignToKnowledge / assignToVariable) -/

/-- Navigation to the parent of the target property inside the fresh
clone: create each missing intermediate as an empty object.  JS details
mirrored: the in operator on a primitive raises a TypeError; named
properties on arrays are not modelled (the created empty object is not
attached to the array; in JS it is attached but dropped again by the
next JSON clone). -/
def navPartsF : Heap → Val → List String → Except Err (Heap × Val)
  | h, cur, [] => .ok (h, cur)
  | h, cur, [_] => .ok (h, cur)
  | h, cur, part :: rest =>
      match cur with
      | .prim _ =>
          .error (.typeErr ("Cannot use in operator to search for " ++ part))
      | .ref a =>
          match h.get a with
          | some (.obj fields) =>
              match getAssoc fields part with
              | some v => navPartsF h v rest
              | none =>
                  let al := h.alloc (.obj [])
                  let h2 := al.2.set a (.obj (setAssoc fields part al.1))
                  navPartsF h2 al.1 rest
          | some (.arr _) =>
              let al := h.alloc (.obj [])
              navPartsF al.2 al.1 rest
          | none => .error (.typeErr ("Cannot use in operator to search for " ++ part))

/-- The final property write of assignToKnowledge, per operator.  On a
plain object: = stores the string-to-number coercion of the value but
returns the uncoerced value; += reads the current value (absent or
falsy gives 0) and adds numerically when both sides look numeric, else
with JS +; -= is like += but errors instead of falling back.  Writing a
property on a primitive raises a TypeError (strict mode); named array
properties are not modelled (the write is dropped). -/
def setFinalF (h : Heap) (cur : Val) (finalProp : String) (op : AOp)
    (value : Val) : Except Err (Val × Heap)  :=
  match cur with
  | .ref a =>
      match h.get a with
      | some (.obj fields) =>
          match op with
          | .assignEq =>
              let h2 := h.set a (.obj (setAssoc fields finalProp (strNumCoerce value)))
              .ok (value, h2)
          | .plusAssign =>
              let cur0 := jsOrZero (getAssoc fields finalProp)
              let result :=
                if (toNumV h cur0).isSome && (toNumV h value).isSome then
                  match toNumV h cur0, toNumV h value with
                  | some x, some y => Val.prim (.num (x.add y))
                  | _, _ => Val.prim .nan
                else jsAdd h cur0 value
              .ok (result, h.set a (.obj (setAssoc fields finalProp result)))
          | .minusAssign =>
              let cur0 := jsOrZero (getAssoc fields finalProp)
              match toNumV h cur0, toNumV h value with
              | some x, some y =>
                  let result := Val.prim (.num (x.sub y))
                  .ok (result, h.set a (.obj (setAssoc fields finalProp result)))
              | _, _ =>
                  .error (.evalErr "Subtraction is only valid for numeric values")
      | some (.arr _) =>
          match op with
          | .assignEq => .ok (value, h)
          | .plusAssign =>
              let cur0 := jsOrZero none
              let result :=
                if (toNumV h cur0).isSome && (toNumV h value).isSome then
                  match toNumV h cur0, toNumV h value with
                  | some x, some y => Val.prim (.num (x.add y))
                  | _, _ => Val.prim .nan
                else jsAdd h cur0 value
              .ok (result, h)
          | .minusAssign =>
              match toNumV h (jsOrZero none), toNumV h value with
              | some x, some y => .ok (.prim (.num (x.sub y)), h)
              | _, _ =>
                  .error (.evalErr "Subtraction is only valid for numeric values")
      | none => .error (.typeErr ("Cannot create property " ++ finalProp))
  | .prim _ =>
      match op with
      | .minusAssign =>
          -- the current value reads as undefined, so || 0 gives 0; a
          -- non-numeric right side raises the subtraction error before
          -- the property write would throw
          match toNumV h (jsOrZero none), toNumV h value with
          | some _, some _ =>
              .error (.typeErr ("Cannot create property " ++ finalProp))
          | _, _ => .error (.evalErr "Subtraction is only valid for numeric values")
      | _ => .error (.typeErr ("Cannot create property " ++ finalProp))

/-- Assignment.assignToKnowledge: deep-clone the knowledge (JSON round
trip), navigate creating missing intermediates, apply the operator at
the final property, return the result value and the clone root as the
new knowledge. -/
def assignToKnowledgeF (path : List String) (op : AOp) (value : Val)
    (k : Val) (vars : VarMap) (st : St) : EvalRes :=
  match path with
  | [] => .error (.evalErr "Knowledge assignment must start with $$")
  | root :: pathParts =>
      if !(root == "$") then
        .error (.evalErr "Knowledge assignment must start with $$")
      else
        match jsonClone st.heap k with
        | none => .error .fuelErr
        | some (newK, h2) =>
            match navPartsF h2 newK pathParts with
            | .error e => .error e
            | .ok (h3, cur) =>
                let finalProp := (pathParts.getLast?).getD "undefined"
                match setFinalF h3 cur finalProp op value with
                | .error e => .error e
                | .ok (result, h4) => .ok (result, newK, vars, ⟨h4, st.rng⟩)

/-- Assignment.assignToVariable: = stores the value, += applies JS +
(so an unbound target concatenates when the value is a string), -=
applies JS - (NaN on non-numeric operands, no error). -/
def assignToVariableF (path : List String) (op : AOp) (value : Val)
    (k : Val) (vars : VarMap) (st : St) : EvalRes :=
  let varName := path.headD "undefined"
  match op with
  | .assignEq => .ok (value, k, setAssoc vars varName value, st)
  | .plusAssign =>
      let cur := jsOrZero (getAssoc vars varName)
      let result := jsAdd st.heap cur value
      .ok (result, k, setAssoc vars varName result, st)
  | .minusAssign =>
      let cur := jsOrZero (getAssoc vars varName)
      let result := jsSub st.heap cur value
      .ok (result, k, setAssoc vars varName result, st)

/-! ### Variable and knowledge reads (VariableReference, RuleReference) -/

def vrToString (path : List String) (isKnowledge : Bool) : String :=
  if isKnowledge then "$$." ++ String.intercalate "." (path.drop 1)
  else "$" ++ String.intercalate "." path

/-- Object.keys as used in the missing-property message. -/
def objKeys (h : Heap) (v : Val) : List String :=
  match v with
  | .prim _ => []
  | .ref a =>
      match h.get a with
      | some (.obj fields) => fields.map (fun kv => kv.1)
      | some (.arr items) => (List.range items.length).map Nat.repr
      | none => []

/-- The walk of evaluateKnowledgePath: each step must reach a non-null
object owning the property, else an EvaluationError naming the missing
property, the resolved path so far and the keys available there. -/
def kWalkF (h : Heap) : Val → List String → List String → Except Err Val
  | cur, [], _ => .ok cur
  | cur, part :: rest, resolved =>
      if cur == .prim .null || cur == .prim .undef then
        .error (.evalErr ("Cannot access property " ++ part ++ " of " ++
          (if cur == .prim .null then "null" else "undefined")))
      else
        let avail := objKeys h cur
        let found : Option Val :=
          match cur with
          | .ref a =>
              match h.get a with
              | some (.obj fields) => getAssoc fields part
              | _ => none
          | _ => none
        match found with
        | some v => kWalkF h v rest (resolved ++ [part])
        | none =>
            .error (.evalErr ("Property " ++ part ++ " not found at " ++
              String.intercalate "." resolved ++ ". Available: [" ++
              String.intercalate ", " avail ++ "]"))

/-- Does this array element look like a WeightedItem (an object with a
weight property)? -/
def itemHasWeight (h : Heap) (v : Val) : Bool :=
  match v with
  | .ref a =>
      match h.get a with
      | some (.obj fields) => hasAssoc fields "weight"
      | _ => false
  | _ => false

def itemWeight (h : Heap) (v : Val) : Val :=
  match v with
  | .ref a =>
      match h.get a with
      | some (.obj fields) =>
          match getAssoc fields "weight" with
          | some w => w
          | none => .prim (.num ⟨1, 1⟩)
      | _ => .prim (.num ⟨1, 1⟩)
  | _ => .prim (.num ⟨1, 1⟩)

/-- Unwrap item.value when the selected element is an object with a
value property. -/
def itemValue (h : Heap) (v : Val) : Val :=
  match v with
  | .ref a =>
      match h.get a with
      | some (.obj fields) =>
          match getAssoc fields "value" with
          | some w => w
          | none => v
      | _ => v
  | _ => v

/-- The cumulative walk over weighted array items. -/
def arrWalkF (h : Heap) (random : Val) : List Val → Val → Option Val
  | [], _ => none
  | item :: rest, cw =>
      let cw1 := jsAdd h cw (itemWeight h item)
      if jsLeB h random cw1 then some (itemValue h item)
      else arrWalkF h random rest cw1

/-- VariableReference.selectFromArray: empty gives the empty string;
with weighted items, one draw and the cumulative walk (falling through
to uniform selection when the walk picks nothing); otherwise a uniform
index draw. -/
def selectFromArrayF (items : List Val) (k : Val) (vars : VarMap) (st : St) :
    EvalRes :=
  match items with
  | [] => .ok (.prim (.str ""), k, vars, st)
  | _ =>
      let hasWeights := items.any (itemHasWeight st.heap)
      if hasWeights then
        let total := items.foldl
          (fun s it => jsAdd st.heap s (itemWeight st.heap it))
          (.prim (.num ⟨0, 1⟩))
        let draw := rngNext st.rng
        let random := jsMul st.heap (.prim (.num draw.1)) total
        let st1 : St := ⟨st.heap, draw.2⟩
        match arrWalkF st.heap random items (.prim (.num ⟨0, 1⟩)) with
        | some v => .ok (v, k, vars, st1)
        | none =>
            let draw2 := rngNext st1.rng
            let idx := (draw2.1.mul (Q.ofNat items.length)).floorNat
            let sel := (items[idx]?).getD (.prim .undef)
            .ok (itemValue st.heap sel, k, vars, ⟨st.heap, draw2.2⟩)
      else
        let draw2 := rngNext st.rng
        let idx := (draw2.1.mul (Q.ofNat items.length)).floorNat
        let sel := (items[idx]?).getD (.prim .undef)
        .ok (itemValue st.heap sel, k, vars, ⟨st.heap, draw2.2⟩)

/-- VariableReference.evaluateKnowledgePath. -/
def evalKnowledgePathF (path : List String) (k : Val) (vars : VarMap)
    (st : St) : EvalRes :=
  match path with
  | [] => .error (.evalErr "Expected $$ but got undefined")
  | root :: pathParts =>
      if !(root == "$") then
        .error (.evalErr ("Expected $$ but got " ++ root))
      else
        match kWalkF st.heap k pathParts ["$$"] with
        | .error e => .error e
        | .ok cur =>
            match cur with
            | .ref a =>
                match st.heap.get a with
                | some (.arr items) => selectFromArrayF items k vars st
                | _ => .ok (cur, k, vars, st)
            | _ => .ok (cur, k, vars, st)

/-- The dotted sub-path walk of evaluateVariable into a stored variable
value: an intermediate that is not an object raises an EvaluationError,
a missing property reads as undefined. -/
def varSubF (h : Heap) : Val → List String → Except Err Val
  | v, [] => .ok v
  | v, part :: rest =>
      match v with
      | .ref a =>
          match h.get a with
          | some (.obj fields) =>
              varSubF h ((getAssoc fields part).getD (.prim .undef)) rest
          | some (.arr _) => varSubF h (.prim .undef) rest
          | none => varSubF h (.prim .undef) rest
      | _ =>
          .error (.evalErr ("Cannot access property " ++ part ++ " of " ++
            primToString (match v with | .prim p => p | _ => .undef)))

/-- The numeric coercion on variable read: a string that fully parses
as a number (and is not whitespace only) reads as that number. -/
def readCoerce (v : Val) : Val :=
  match v with
  | .prim (.str s) =>
      match strToNumOpt s with
      | some q => if jsTrim s == "" then v else .prim (.num q)
      | none => v
  | v => v

/-- VariableReference.evaluateVariable: a bound variable wins (walking
any dotted sub-path, coercing numeric-looking strings); else a single
path segment resolves as a rule when a grammar is in scope (trimming
string results); else the not-defined error. -/
def evalVariableF (ev : NodeEval) (f : Nat) (g : Option GrammarT)
    (path : List String) (k : Val) (vars : VarMap) (st : St) : EvalRes :=
  let varName := path.headD "undefined"
  if hasAssoc vars varName then
    match varSubF st.heap ((getAssoc vars varName).getD (.prim .undef))
        (path.drop 1) with
    | .error e => .error e
    | .ok v => .ok (readCoerce v, k, vars, st)
  else
    let fallbackErr : EvalRes :=
      .error (.evalErr ("Variable or rule " ++ varName ++ " not defined"))
    match g with
    | some gr =>
        if path.length == 1 then
          match getAssoc gr.rules varName with
          | some rule =>
              match evalRuleF ev f rule k vars st with
              | .error e => .error e
              | .ok (v, k1, varsOut, st1) =>
                  match v with
                  | .prim (.str s) => .ok (.prim (.str (jsTrim s)), k1, varsOut, st1)
                  | _ => .ok (v, k1, varsOut, st1)
          | none => fallbackErr
        else fallbackErr
    | none => fallbackErr

/-- The catch-and-rewrap of VariableReference.evaluate (fuel exhaustion
is the modelling artifact for nontermination and stays transparent). -/
def wrapVarErr (name : String) : EvalRes → EvalRes
  | .error .fuelErr => .error .fuelErr
  | .error e =>
      .error (.evalErr ("Failed to resolve variable " ++ name ++ ": " ++
        e.message))
  | r => r

/-- RuleReference.evaluate: a bound variable with the same name shadows
the rule; else resolve and evaluate the rule, trimming string output. -/
def evalRuleRefF (ev : NodeEval) (f : Nat) (g : Option GrammarT)
    (name : String) (k : Val) (vars : VarMap) (st : St) : EvalRes :=
  if hasAssoc vars name then
    .ok (readCoerce ((getAssoc vars name).getD (.prim .undef)), k, vars, st)
  else
    match g with
    | none =>
        .error (.evalErr ("Cannot resolve rule reference " ++ name ++
          " - no grammar context"))
    | some gr =>
        match getAssoc gr.rules name with
        | none => .error (.evalErr ("Rule " ++ name ++ " not found"))
        | some rule =>
            match evalRuleF ev f rule k vars st with
            | .error e => .error e
            | .ok (v, k1, varsOut, st1) =>
                match v with
                | .prim (.str s) => .ok (.prim (.str (jsTrim s)), k1, varsOut, st1)
                | _ => .ok (v, k1, varsOut, st1)

/-- BinaryExpression.applyOperator on the cleaned-up operands. -/
def applyOperatorF (h : Heap) (op : BOp) (left right : Val) : Val :=
  let numLeft := strNumCoerce left
  let numRight := strNumCoerce right
  match op with
  | .add =>
      match primNumTy numLeft, primNumTy numRight with
      | some a, some b =>
          match a, b with
          | some x, some y => .prim (.num (x.add y))
          | _, _ => .prim .nan
      | _, _ => jsAdd h left right
  | .sub => jsSub h numLeft numRight
  | .mul => jsMul h numLeft numRight
  | .div => jsDiv h numLeft numRight
  | .eq => .prim (.bool (looseEq h left right))
  | .ne => .prim (.bool (!looseEq h left right))
  | .lt => .prim (.bool (jsLtB h left right))
  | .gt => .prim (.bool (jsLtB h right left))
  | .le => .prim (.bool (jsLeB h left right))
  | .ge => .prim (.bool (jsLeB h right left))

/-- JS Number() coercion to a number value (NaN when it fails). -/
def numCoerceV (h : Heap) (v : Val) : Val :=
  match toNumV h v with
  | some q => .prim (.num q)
  | none => .prim .nan

/-- The evaluator for AST nodes, one fuel unit per evaluate call.  The
helper loops receive the one-step-smaller evaluator as a closure. -/
def evalE : Nat → Option GrammarT → Node → Val → VarMap → St → EvalRes
  | 0, _, _, _, _, _ => .error .fuelErr
  | n + 1, g, node, k, vars, st =>
      match node with
      | .lit p => .ok (.prim p, k, vars, st)
      | .varRef path isK =>
          wrapVarErr (vrToString path isK)
            (if isK then evalKnowledgePathF path k vars st
             else evalVariableF (evalE n g) n g path k vars st)
      | .ruleRef name => evalRuleRefF (evalE n g) n g name k vars st
      | .assign path isK op expr =>
          match evalE n g expr k vars st with
          | .error e => .error e
          | .ok (v, k1, vars1, st1) =>
              if isK then assignToKnowledgeF path op v k1 vars1 st1
              else assignToVariableF path op v k1 vars1 st1
      | .binop l op r =>
          match evalE n g l k vars st with
          | .error e => .error e
          | .ok (lv, k1, vars1, st1) =>
              match evalE n g r k1 vars1 st1 with
              | .error e => .error e
              | .ok (rv, k2, vars2, st2) =>
                  let lv1 := trimIfStr lv
                  let rv1 := trimIfStr rv
                  let leftNumeric :=
                    (toNumV st2.heap lv1).isSome && !(lv1 == .prim (.str ""))
                  let rightNumeric :=
                    (toNumV st2.heap rv1).isSome && !(rv1 == .prim (.str ""))
                  let lv2 := if leftNumeric && rightNumeric then
                    numCoerceV st2.heap lv1 else lv1
                  let rv2 := if leftNumeric && rightNumeric then
                    numCoerceV st2.heap rv1 else rv1
                  .ok (applyOperatorF st2.heap op lv2 rv2, k2, vars2, st2)
      | .cond c t e =>
          match evalE n g c k vars st with
          | .error er => .error er
          | .ok (cv, k1, vars1, st1) =>
              if truthy cv then evalBranchF (evalE n g) n t k1 vars1 st1
              else
                match e with
                | some fb => evalBranchF (evalE n g) n fb k1 vars1 st1
                | none => .ok (.prim (.str ""), k1, vars1, st1)
      | .silent inner =>
          match evalE n g inner k vars st with
          | .error e => .error e
          | .ok (_, k1, vars1, st1) => .ok (.prim (.str ""), k1, vars1, st1)
      | .compound es =>
          -- currentVariables = new Map(context.variables); entries are
          -- also written through to the parent map after each step
          match evalCompoundF (evalE n g) n es (.prim (.str "")) k vars vars st with
          | .error e => .error e
          | .ok (last, k1, _, parentOut, st1) => .ok (last, k1, parentOut, st1)

/-- Grammar.evaluate: look up the start rule, evaluate it with the
grammar in scope, stringify a numeric result value. -/
def evalGrammar (f : Nat) (g : GrammarT) (k : Val) (vars : VarMap)
    (st : St) : EvalRes :=
  match getAssoc g.rules "start" with
  | none => .error (.evalErr "No start rule defined")
  | some startRule =>
      match evalRuleF (evalE f (some g)) f startRule k vars st with
      | .error e => .error e
      | .ok (v, k1, varsOut, st1) =>
          match v with
          | .prim (.num q) => .ok (.prim (.str (qToString q)), k1, varsOut, st1)
          | .prim .nan => .ok (.prim (.str "NaN"), k1, varsOut, st1)
          | _ => .ok (v, k1, varsOut, st1)

/-- Everything Generator.execute leaves behind: the output value, the
updatedKnowledge value, the final heap and random state, the final
variable map, and the heap value of the caller's knowledge object
(which C2 reads back). -/
structure ExecOut where
  output : Val
  knowledgeVal : Val
  heap : Heap
  rng : Int
  varsOut : VarMap
  callerRoot : Val

/-- Generator.execute with a seed: materialize the caller's knowledge
object, shallow-copy it into the context (Generator.
createExecutionContext), start with an empty variable map and the
scrambled seed, and evaluate the grammar. -/
def executeModel (g : GrammarT) (knowledge : PureFields) (seed : Int)
    (fuel : Nat) : Except Err ExecOut :=
  let load := allocPure (.obj knowledge) ⟨[]⟩
  let callerRoot := load.1
  let ctxK := load.2.alloc (.obj (spreadFields load.2 callerRoot))
  match evalGrammar fuel g ctxK.1 [] ⟨ctxK.2, seedInit seed⟩ with
  | .error e => .error e
  | .ok (v, k1, varsOut, st1) =>
      .ok ⟨v, k1, st1.heap, st1.rng, varsOut, callerRoot⟩

/-! ### Spec-side characterizations used by the claim theorems -/

/-- The first index whose cumulative weight (starting from cw) bounds
the draw r, as the spec words the weighted-selection rule; none when no
cumulative weight reaches r. -/
def specSelectIdx (r : Q) : List Q → Q → Option Nat
  | [], _ => none
  | w :: rest, cw =>
      if r.qle (cw.add w) then some 0
      else (specSelectIdx r rest (cw.add w)).map Nat.succ

def dfltAlt : Alt := ⟨[], ⟨1, 1⟩⟩

/-- compile followed by execute, the public two-call API. -/
def compileExecute (G : String) (K : PureFields) (S : Int) (fuel : Nat) :
    Except Err ExecOut :=
  match compile G with
  | .error e => .error e
  | .ok g => executeModel g K S fuel

/-- The property every parsed alternative's weight has. -/
def altWeightFromSource (alt : Alt) : Prop :=
  alt.weight = ⟨1, 1⟩ ∨ ∃ s, alt.weight = parseFloatQ s

/-- The prose-spacing rule as the source implements it, as one step of
a fold over the stringified nonempty element values: empty values are
skipped; otherwise exactly one space is inserted before the value
unless no nonempty value came before, or the value is a newline or
starts with a newline, or the accumulated output is empty or ends with
a newline, or the value starts with one of . , ! ? ; : -/
def proseStep : String × Bool → String → String × Bool
  | (result, needsSpace), s =>
      if s == "" then (result, needsSpace)
      else
        let withSpace := needsSpace && !(s == "\n") && !(strStarts s "\n")
          && !(result == "") && !(strEnds result "\n") && !(startsWithPunct s)
        ((if withSpace then result ++ " " else result) ++ s, true)

def proseJoin (ss : List String) : String :=
  (ss.foldl proseStep ("", false)).1

/-! ### Heap-preservation infrastructure (for the immutability claim):
evaluation never modifies an address that existed when it started — it
only appends fresh objects and writes into freshly cloned ones. -/

/-- Addresses below c keep their contents, and the heap only grows. -/
def PreservedBelow (c : Nat) (h h' : Heap) : Prop :=
  h.next ≤ h'.next ∧ ∀ a, a < c → h'.get a = h.get a

/-- The heap only grows and no existing address changes. -/
def HeapLE (h h' : Heap) : Prop := PreservedBelow h.next h h'

def ValGe (c : Nat) : Val → Prop
  | .prim _ => True
  | .ref a => c ≤ a

def HObjGe (c : Nat) : HObj → Prop
  | .obj fields => ∀ kv ∈ fields, ValGe c kv.2
  | .arr items => ∀ v ∈ items, ValGe c v

/-- Every object stored at or above c only references addresses at or
above c: the fresh region a JSON clone builds is self-contained, so
path navigation inside it never leads back into (and never writes)
pre-existing addresses. -/
def CloneInv (h : Heap) (c : Nat) : Prop :=
  ∀ a o, c ≤ a → h.get a = some o → HObjGe c o

/-- The value is a finite tree in the heap all of whose addresses lie
below c. -/
inductive Bounded (h : Heap) (c : Nat) : Val → Prop where
  | prim (p : Prim) : Bounded h c (.prim p)
  | obj (a : Nat) (fields : List (String × Val)) : a < c →
      h.get a = some (.obj fields) → (∀ kv ∈ fields, Bounded h c kv.2) →
      Bounded h c (.ref a)
  | arr (a : Nat) (items : List Val) : a < c →
      h.get a = some (.arr items) → (∀ v ∈ items, Bounded h c v) →
      Bounded h c (.ref a)

mutual
/-- Node count of a pure value tree: enough read-back fuel. -/
def sizeP : PureVal → Nat
  | .prim _ => 1
  | .obj fs => sizeF fs + 1
  | .arr xs => sizeI xs + 1

def sizeF : PureFields → Nat
  | .nil => 0
  | .cons _ v rest => sizeP v + sizeF rest + 1

def sizeI : PureItems → Nat
  | .nil => 0
  | .cons v rest => sizeP v + sizeI rest + 1
end

/-- An evaluator closure that only grows the heap. -/
def EvPres (ev : NodeEval) : Prop :=
  ∀ nd k vars st v k1 vars1 st1,
    ev nd k vars st = .ok (v, k1, vars1, st1) → HeapLE st.heap st1.heap

/-- Concrete inputs for the C2 witness run: knowledge { hp: 75 } and a
grammar whose start rule adds 25 to $$.hp. -/
def kbC2 : PureFields := .cons "hp" (.prim (.num ⟨75, 1⟩)) .nil

def gC2 : GrammarT :=
  ((compile "$start := [!$$.hp += 25] x").toOption).getD ⟨[]⟩

def oC2 : ExecOut :=
  (executeModel gC2 kbC2 1 20).toOption.getD
    ⟨.prim .undef, .prim .undef, ⟨[]⟩, 0, [], .prim .undef⟩

/-! ### Claim theorems -/

/-- C1: For every grammar text G that compiles, every knowledge object
K, and every integer seed S, two calls of execute(compile(G), K, S)
return identical output and identical updatedKnowledge.  The embedding
is a pure function of (grammar, knowledge, seed, fuel): the seeded
entropy source is a deterministic state machine, so the two runs agree
on every observable, including the heap holding the updated
knowledge. -/
theorem C1_execute_deterministic (G : String) (g : GrammarT)
    (K : PureFields) (S : Int) (fuel : Nat) (o1 o2 : ExecOut)
    (_hc : compile G = .ok g)
    (h1 : executeModel g K S fuel = .ok o1)
    (h2 : executeModel g K S fuel = .ok o2) :
    o1.output = o2.output ∧ o1.knowledgeVal = o2.knowledgeVal ∧
    o1.heap = o2.heap ∧ o1.rng = o2.rng ∧ o1.varsOut = o2.varsOut := by
  rw [h1] at h2
  cases h2
  exact ⟨rfl, rfl, rfl, rfl, rfl⟩

/-- Witness for C1 at the grammar "dollar start := hi", empty
knowledge, seed 123. -/
theorem C1_execute_deterministic_witness :
    (⟨.prim (.str "hi"), .ref 1, ⟨[.obj [], .obj []]⟩, seedInit 123, [],
        .ref 0⟩ : ExecOut).output =
      (⟨.prim (.str "hi"), .ref 1, ⟨[.obj [], .obj []]⟩, seedInit 123, [],
        .ref 0⟩ : ExecOut).output ∧
    (⟨.prim (.str "hi"), .ref 1, ⟨[.obj [], .obj []]⟩, seedInit 123, [],
        .ref 0⟩ : ExecOut).knowledgeVal =
      (⟨.prim (.str "hi"), .ref 1, ⟨[.obj [], .obj []]⟩, seedInit 123, [],
        .ref 0⟩ : ExecOut).knowledgeVal ∧
    (⟨.prim (.str "hi"), .ref 1, ⟨[.obj [], .obj []]⟩, seedInit 123, [],
        .ref 0⟩ : ExecOut).heap =
      (⟨.prim (.str "hi"), .ref 1, ⟨[.obj [], .obj []]⟩, seedInit 123, [],
        .ref 0⟩ : ExecOut).heap ∧
    (⟨.prim (.str "hi"), .ref 1, ⟨[.obj [], .obj []]⟩, seedInit 123, [],
        .ref 0⟩ : ExecOut).rng =
      (⟨.prim (.str "hi"), .ref 1, ⟨[.obj [], .obj []]⟩, seedInit 123, [],
        .ref 0⟩ : ExecOut).rng ∧
    (⟨.prim (.str "hi"), .ref 1, ⟨[.obj [], .obj []]⟩, seedInit 123, [],
        .ref 0⟩ : ExecOut).varsOut =
      (⟨.prim (.str "hi"), .ref 1, ⟨[.obj [], .obj []]⟩, seedInit 123, [],
        .ref 0⟩ : ExecOut).varsOut :=
  C1_execute_deterministic "$start := hi"
    ⟨[("start", ⟨"start", [⟨[.lit (.str "hi")], ⟨1, 1⟩⟩]⟩)]⟩ .nil 123 100
    _ _ rfl rfl rfl

/-- The cumulative walk of selectWeightedAlternative evaluates exactly
the alternative at the first index whose cumulative weight bounds the
draw, or the fallback when no cumulative weight does. -/
theorem selectLoopF_spec (ev : NodeEval) (f : Nat) (allAlts : List Alt)
    (k : Val) (vars : VarMap) (st : St) (r : Q) :
    ∀ (rest : List Alt) (cw : Q),
    selectLoopF ev f rest r cw allAlts k vars st =
      match specSelectIdx r (rest.map Alt.weight) cw with
      | some i => evalChosenAltF ev f ((rest.get? i).getD dfltAlt) k vars st
      | none =>
          match allAlts.getLast? with
          | some alt => evalChosenAltF ev f alt k vars st
          | none => .error (.typeErr "Cannot read properties of undefined")
  | [], cw => by simp [selectLoopF, specSelectIdx]
  | alt :: rest, cw => by
      simp only [selectLoopF, specSelectIdx, List.map_cons]
      by_cases h : r.qle (cw.add alt.weight)
      · simp [h]
      · simp only [h, if_false]
        rw [selectLoopF_spec ev f allAlts k vars st r rest (cw.add alt.weight)]
        cases hfind : specSelectIdx r (rest.map Alt.weight) (cw.add alt.weight) with
        | none => simp
        | some i => simp

/-- C3: Rule.evaluate with exactly one alternative evaluates it
directly against the caller's context (no selection draw is taken: the
entropy state st.rng enters the alternative untouched); with two or
more alternatives it takes one draw, scales it by the sum of the
weights, and evaluates (with the copy-and-merge variable handling of
selectWeightedAlternative) the first alternative whose cumulative
weight bounds the scaled draw, falling back to the last alternative
when none does. -/
theorem C3_rule_weighted_selection (ev : NodeEval) (f : Nat) (rule : RuleT)
    (k : Val) (vars : VarMap) (st : St) :
    (∀ alt, rule.alternatives = [alt] →
      evalRuleF ev f rule k vars st = evalAltF ev f alt k vars st) ∧
    (2 ≤ rule.alternatives.length →
      evalRuleF ev f rule k vars st =
        (let draw := rngNext st.rng
         let scaled := draw.1.mul (sumWeights rule.alternatives)
         match specSelectIdx scaled (rule.alternatives.map Alt.weight) ⟨0, 1⟩ with
         | some i =>
             evalChosenAltF ev f ((rule.alternatives.get? i).getD dfltAlt)
               k vars ⟨st.heap, draw.2⟩
         | none =>
             evalChosenAltF ev f ((rule.alternatives.getLast?).getD dfltAlt)
               k vars ⟨st.heap, draw.2⟩)) := by
  constructor
  · intro alt h
    simp [evalRuleF, h]
  · intro h2
    match hA : rule.alternatives with
    | [] => rw [hA] at h2; simp at h2
    | [a] => rw [hA] at h2; simp at h2
    | a :: b :: rest =>
        simp only [evalRuleF, hA, selectWeightedF]
        rw [selectLoopF_spec]
        cases hfind : specSelectIdx
            ((rngNext st.rng).1.mul (sumWeights (a :: b :: rest)))
            ((a :: b :: rest).map Alt.weight) ⟨0, 1⟩ with
        | some i => simp
        | none =>
            simp only []
            cases hl : (a :: b :: rest).getLast? with
            | some alt => simp [hl]
            | none => simp [List.getLast?_eq_none_iff] at hl

/-- Witness for C3: a one-alternative rule and a two-alternative rule,
both at seed state 0. -/
theorem C3_rule_weighted_selection_witness :
    (evalRuleF (evalE 5 none) 5 ⟨"s", [⟨[.lit (.str "a")], ⟨1, 1⟩⟩]⟩
        (.prim .null) [] ⟨⟨[]⟩, 0⟩ =
      evalAltF (evalE 5 none) 5 ⟨[.lit (.str "a")], ⟨1, 1⟩⟩
        (.prim .null) [] ⟨⟨[]⟩, 0⟩) ∧
    (evalRuleF (evalE 5 none) 5
        ⟨"m", [⟨[.lit (.str "a")], ⟨1, 1⟩⟩, ⟨[.lit (.str "b")], ⟨2, 1⟩⟩]⟩
        (.prim .null) [] ⟨⟨[]⟩, 0⟩ =
      (let draw := rngNext (⟨⟨[]⟩, 0⟩ : St).rng
       let scaled := draw.1.mul (sumWeights
         (⟨"m", [⟨[.lit (.str "a")], ⟨1, 1⟩⟩, ⟨[.lit (.str "b")], ⟨2, 1⟩⟩]⟩ :
           RuleT).alternatives)
       match specSelectIdx scaled
           ((⟨"m", [⟨[.lit (.str "a")], ⟨1, 1⟩⟩, ⟨[.lit (.str "b")], ⟨2, 1⟩⟩]⟩ :
             RuleT).alternatives.map Alt.weight) ⟨0, 1⟩ with
       | some i =>
           evalChosenAltF (evalE 5 none) 5
             (((⟨"m", [⟨[.lit (.str "a")], ⟨1, 1⟩⟩, ⟨[.lit (.str "b")], ⟨2, 1⟩⟩]⟩ :
               RuleT).alternatives.get? i).getD dfltAlt)
             (.prim .null) [] ⟨(⟨⟨[]⟩, 0⟩ : St).heap, draw.2⟩
       | none =>
           evalChosenAltF (evalE 5 none) 5
             (((⟨"m", [⟨[.lit (.str "a")], ⟨1, 1⟩⟩, ⟨[.lit (.str "b")], ⟨2, 1⟩⟩]⟩ :
               RuleT).alternatives.getLast?).getD dfltAlt)
             (.prim .null) [] ⟨(⟨⟨[]⟩, 0⟩ : St).heap, draw.2⟩)) :=
  ⟨(C3_rule_weighted_selection (evalE 5 none) 5
      ⟨"s", [⟨[.lit (.str "a")], ⟨1, 1⟩⟩]⟩ (.prim .null) [] ⟨⟨[]⟩, 0⟩).1 _ rfl,
   (C3_rule_weighted_selection (evalE 5 none) 5
      ⟨"m", [⟨[.lit (.str "a")], ⟨1, 1⟩⟩, ⟨[.lit (.str "b")], ⟨2, 1⟩⟩]⟩
      (.prim .null) [] ⟨⟨[]⟩, 0⟩).2 (by decide)⟩

/-- C4 (code bug): variables bound while evaluating a rule's chosen
alternative are NOT passed back to the caller, although the copy-back
loop in selectWeightedAlternative exists for exactly that purpose (its
own comment reads "Ensure variables defined in the alternative are
passed back up"): Alternative.evaluate accumulates bindings only in its
private copy of the map and never writes them to the map the copy-back
loop later reads.  Concretely: evaluating the elements of the
alternative of rule sub binds x to "5" in the working map, yet
Rule.evaluate returns the caller's variable map without x, and the
grammar "dollar sub := [!dollar x = 5] hi / dollar start := dollar sub
dollar x" fails with "Rule x not found" instead of printing the
binding. -/
theorem C4_variable_copyback_broken :
    evalElemsF (evalE 10 none) 10
        [.silent (.assign ["x"] false .assignEq (.lit (.str "5"))),
         .lit (.str "hi")]
        "" false (.prim .null) [] ⟨⟨[]⟩, 0⟩
      = .ok ("hi", .prim .null, [("x", .prim (.str "5"))], ⟨⟨[]⟩, 0⟩) ∧
    evalRuleF (evalE 10 none) 10
        ⟨"sub", [⟨[.silent (.assign ["x"] false .assignEq (.lit (.str "5"))),
          .lit (.str "hi")], ⟨1, 1⟩⟩]⟩
        (.prim .null) [] ⟨⟨[]⟩, 0⟩
      = .ok (.prim (.str "hi"), .prim .null, [], ⟨⟨[]⟩, 0⟩) ∧
    compileExecute "$sub := [!$x = 5] hi\n$start := $sub $x" .nil 0 500
      = .error (.evalErr "Rule x not found") :=
  ⟨rfl, rfl, rfl⟩

/-- C5 counterexample: the weight marker ::0 is accepted, producing an
alternative whose weight is 0, which is not strictly positive — no
validation rejects it. -/
theorem C5_zero_weight_accepted :
    compile "$start := x::0" =
      .ok ⟨[("start", ⟨"start", [⟨[.lit (.str "x")], ⟨0, 1⟩⟩]⟩)]⟩ ∧
    Q.qlt ⟨0, 1⟩ ⟨0, 1⟩ = false :=
  ⟨rfl, rfl⟩

theorem pow10_pos (k : Nat) : 0 < pow10 k := by
  induction k with
  | zero => decide
  | succ k ih =>
      simp only [pow10]
      exact Nat.mul_pos (by norm_num) ih

theorem parseDecCore_nonneg (l : List Char) (q : Q)
    (h : parseDecCore l = some q) : 0 ≤ q.n ∧ 0 < q.d := by
  simp only [parseDecCore] at h
  split at h
  · split at h
    · exact absurd h (by simp)
    · cases h
      exact ⟨by simp [Q.ofNat], by simp [Q.ofNat]⟩
  · split at h
    · cases h
      exact ⟨Int.ofNat_nonneg _, pow10_pos _⟩
    · exact absurd h (by simp)
  · exact absurd h (by simp)

theorem parseFloatQ_nonneg (s : String) :
    0 ≤ (parseFloatQ s).n ∧ 0 < (parseFloatQ s).d := by
  unfold parseFloatQ
  cases h : parseDecCore s.data with
  | none => exact ⟨le_refl 0, by decide⟩
  | some q => exact parseDecCore_nonneg _ _ h

/-- Every weight an alternative can end up with is the caller's initial
weight or the parse of some number-token text. -/
theorem parseAltLoopF_weight :
    ∀ (f : Nat) (toks : List Token) (i : Nat) (acc : List Node) (w : Q)
      (es : List Node) (w' : Q) (i' : Nat),
      parseAltLoopF f toks i acc w = .ok (es, w', i') →
      w' = w ∨ ∃ s, w' = parseFloatQ s := by
  intro f
  induction f with
  | zero =>
      intro toks i acc w es w' i' h
      exact absurd h (by simp [parseAltLoopF])
  | succ f ih =>
      intro toks i acc w es w' i' h
      rw [parseAltLoopF] at h
      split at h
      · split at h
        · exact ih _ _ _ _ _ _ _ h
        · split at h
          · exact absurd h (by simp)
          · split at h
            · split at h
              · cases h
                exact .inr ⟨_, rfl⟩
              · exact ih _ _ _ _ _ _ _ h
            · exact ih _ _ _ _ _ _ _ h
      · cases h
        exact .inl rfl

theorem parseAlternativeF_weight (f : Nat) (toks : List Token) (i : Nat)
    (alt : Alt) (i' : Nat) (h : parseAlternativeF f toks i = .ok (alt, i')) :
    alt.weight = ⟨1, 1⟩ ∨ ∃ s, alt.weight = parseFloatQ s := by
  unfold parseAlternativeF at h
  split at h
  · exact absurd h (by simp)
  · rename_i res elements w i1 heq
    split at h
    · exact absurd h (by simp)
    · cases h
      exact parseAltLoopF_weight _ _ _ _ _ _ _ _ heq

theorem parseAlternativesLoopF_weight :
    ∀ (f : Nat) (toks : List Token) (i : Nat) (acc alts : List Alt) (i' : Nat),
      parseAlternativesLoopF f toks i acc = .ok (alts, i') →
      (∀ alt ∈ acc, altWeightFromSource alt) →
      ∀ alt ∈ alts, altWeightFromSource alt := by
  intro f
  induction f with
  | zero =>
      intro toks i acc alts i' h
      exact absurd h (by simp [parseAlternativesLoopF])
  | succ f ih =>
      intro toks i acc alts i' h hacc
      rw [parseAlternativesLoopF] at h
      split at h
      · cases h
        exact hacc
      · split at h
        · exact absurd h (by simp)
        · rename_i a1 i1 o alt2 i2 heq
          refine ih _ _ _ _ _ h ?_
          intro alt hm
          rcases List.mem_append.mp hm with hm | hm
          · exact hacc _ hm
          · rcases List.mem_singleton.mp hm with rfl
            exact parseAlternativeF_weight _ _ _ _ _ heq

theorem parseAlternativesF_weight (f : Nat) (toks : List Token) (i : Nat)
    (alts : List Alt) (i' : Nat)
    (h : parseAlternativesF f toks i = .ok (alts, i')) :
    ∀ alt ∈ alts, altWeightFromSource alt := by
  unfold parseAlternativesF at h
  split at h
  · exact absurd h (by simp)
  · rename_i o alt1 i1 heq
    refine parseAlternativesLoopF_weight _ _ _ _ _ _ h ?_
    intro alt hm
    rcases List.mem_singleton.mp hm with rfl
    exact parseAlternativeF_weight _ _ _ _ _ heq

theorem parseRuleF_weight (f : Nat) (toks : List Token) (i : Nat)
    (rule : RuleT) (i' : Nat) (h : parseRuleF f toks i = .ok (rule, i')) :
    ∀ alt ∈ rule.alternatives, altWeightFromSource alt := by
  unfold parseRuleF at h
  split at h
  · exact absurd h (by simp)
  · split at h
    · exact absurd h (by simp)
    · split at h
      · exact absurd h (by simp)
      · split at h
        · exact absurd h (by simp)
        · rename_i heq
          cases h
          exact parseAlternativesF_weight _ _ _ _ _ heq

theorem setAssoc_mem {α : Type} (l : List (String × α)) (k : String) (v : α) :
    ∀ kv ∈ setAssoc l k v, kv.2 = v ∨ kv ∈ l := by
  induction l with
  | nil =>
      intro kv hm
      rcases List.mem_singleton.mp hm with rfl
      exact .inl rfl
  | cons hd tl ih =>
      intro kv hm
      simp only [setAssoc] at hm
      split at hm
      · rcases List.mem_cons.mp hm with rfl | hm
        · exact .inl rfl
        · exact .inr (List.mem_cons_of_mem _ hm)
      · rcases List.mem_cons.mp hm with rfl | hm
        · exact .inr (List.mem_cons_self _ _)
        · rcases ih kv hm with h | h
          · exact .inl h
          · exact .inr (List.mem_cons_of_mem _ h)

theorem parseGrammarLoopF_weight :
    ∀ (f : Nat) (toks : List Token) (i : Nat)
      (rules rules' : List (String × RuleT)),
      parseGrammarLoopF f toks i rules = .ok rules' →
      (∀ nr ∈ rules, ∀ alt ∈ nr.2.alternatives, altWeightFromSource alt) →
      ∀ nr ∈ rules', ∀ alt ∈ nr.2.alternatives, altWeightFromSource alt := by
  intro f
  induction f with
  | zero =>
      intro toks i rules rules' h
      exact absurd h (by simp [parseGrammarLoopF])
  | succ f ih =>
      intro toks i rules rules' h hacc
      rw [parseGrammarLoopF] at h
      split at h
      · cases h
        exact hacc
      · split at h
        · exact absurd h (by simp)
        · rename_i o rule i2 heq
          refine ih _ _ _ _ h ?_
          intro nr hm
          rcases setAssoc_mem _ _ _ _ hm with h2 | h2
          · rw [h2]
            exact parseRuleF_weight _ _ _ _ _ heq
          · exact hacc _ h2

/-- C5 (amended): every Alternative in a parsed Grammar has a
NONNEGATIVE weight — the weight defaults to 1.0 and otherwise is the
parse of a number token, which the lexer only forms from unsigned
digits, so it can be 0 but never negative; a ::0 marker is accepted
(see the counterexample), not rejected. -/
theorem C5_parsed_weights_nonneg (G : String) (g : GrammarT)
    (h : compile G = .ok g) :
    ∀ nr ∈ g.rules, ∀ alt ∈ nr.2.alternatives,
      altWeightFromSource alt ∧ 0 ≤ alt.weight.n ∧ 0 < alt.weight.d := by
  unfold compile at h
  split at h
  · exact absurd h (by simp)
  · unfold parseGrammar at h
    split at h
    · exact absurd h (by simp)
    · exact absurd h (by simp)
    · rename_i rules hne heq
      cases h
      intro nr hm alt halt
      have hsrc := parseGrammarLoopF_weight _ _ _ _ _ heq (by simp) nr hm alt halt
      refine ⟨hsrc, ?_⟩
      rcases hsrc with h1 | ⟨s, h1⟩
      · rw [h1]
        exact ⟨by decide, by decide⟩
      · rw [h1]
        exact parseFloatQ_nonneg s

/-- Witness for C5 at the grammar with a ::0 marker. -/
theorem C5_parsed_weights_nonneg_witness :
    altWeightFromSource ⟨[.lit (.str "x")], ⟨0, 1⟩⟩ ∧
    0 ≤ (⟨0, 1⟩ : Q).n ∧ 0 < (⟨0, 1⟩ : Q).d :=
  C5_parsed_weights_nonneg "$start := x::0"
    ⟨[("start", ⟨"start", [⟨[.lit (.str "x")], ⟨0, 1⟩⟩]⟩)]⟩ rfl
    ("start", ⟨"start", [⟨[.lit (.str "x")], ⟨0, 1⟩⟩]⟩)
    (List.mem_singleton.mpr rfl)
    ⟨[.lit (.str "x")], ⟨0, 1⟩⟩ (List.mem_singleton.mpr rfl)

/-- C6 counterexample: with elements "a " (ending in a space) and "b",
the code inserts a space anyway — it only suppresses the space after a
NEWLINE, not after general whitespace — giving "a &nbsp;b" with two
spaces where the claim predicts "a b". -/
theorem C6_space_after_whitespace :
    evalAltF (evalE 5 none) 5 ⟨[.lit (.str "a "), .lit (.str "b")], ⟨1, 1⟩⟩
        (.prim .null) [] ⟨⟨[]⟩, 0⟩
      = .ok (.prim (.str "a  b"), .prim .null, [], ⟨⟨[]⟩, 0⟩) ∧
    ¬ ("a  b" = "a b") :=
  ⟨rfl, by decide⟩

theorem evalElemsF_lits (n : Nat) (g : Option GrammarT) (k : Val)
    (vars : VarMap) (st : St) :
    ∀ (ss : List String) (fuelE : Nat) (result : String) (needsSpace : Bool),
      ss.length < fuelE →
      evalElemsF (evalE (n + 1) g) fuelE (ss.map (fun s => .lit (.str s)))
          result needsSpace k vars st
        = .ok ((ss.foldl proseStep (result, needsSpace)).1, k, vars, st) := by
  intro ss
  induction ss with
  | nil =>
      intro fuelE result needsSpace hf
      cases fuelE with
      | zero => exact absurd hf (by simp)
      | succ fuelE => simp [evalElemsF]
  | cons s rest ih =>
      intro fuelE result needsSpace hf
      cases fuelE with
      | zero => exact absurd hf (by simp)
      | succ fuelE =>
        have hrest : rest.length < fuelE := by
          simpa [Nat.succ_lt_succ_iff] using hf
        have hlit : evalE (n + 1) g (.lit (.str s)) k vars st
            = .ok (.prim (.str s), k, vars, st) := rfl
        simp only [List.map_cons, List.foldl_cons, evalElemsF, hlit]
        by_cases hs : s = ""
        · subst hs
          simp [proseStep, ih _ _ _ hrest]
        · have h3 : (Val.prim (.str s) == Val.prim (.str "")) = false := by
            simp [hs]
          have h4 : (s == "") = false := by simp [hs]
          simp only [jsToString, jsToStringF, primToString, proseStep, h3, h4,
            Bool.or_false, Bool.or_self, if_false, Bool.false_or]
          simp [ih _ _ _ hrest, proseStep, h4]

/-- C6 (amended): Alternative.evaluate over literal elements yields
exactly the proseStep fold of their strings: one space between
successive nonempty values, except that no space is inserted when the
accumulated output is empty or ends with a NEWLINE (general trailing
whitespace does not suppress it — see the counterexample), or the next
value is a newline, starts with a newline, or starts with one of
. , ! ? ; : -/
theorem C6_prose_spacing (n fuelE : Nat) (g : Option GrammarT)
    (ss : List String) (w : Q) (k : Val) (vars : VarMap) (st : St)
    (hf : ss.length < fuelE) :
    evalAltF (evalE (n + 1) g) fuelE ⟨ss.map (fun s => .lit (.str s)), w⟩
        k vars st
      = .ok (.prim (.str (proseJoin ss)), k, vars, st) := by
  unfold evalAltF proseJoin
  rw [evalElemsF_lits n g k vars st ss fuelE "" false hf]

/-- Witness for C6 at the two literals of the counterexample. -/
theorem C6_prose_spacing_witness :
    evalAltF (evalE (4 + 1) none) 5
        (⟨["a ", "b"].map (fun s => .lit (.str s)), ⟨1, 1⟩⟩ : Alt)
        (.prim .null) [] ⟨⟨[]⟩, 0⟩
      = .ok (.prim (.str (proseJoin ["a ", "b"])), .prim .null, [], ⟨⟨[]⟩, 0⟩) :=
  C6_prose_spacing 4 5 none ["a ", "b"] ⟨1, 1⟩ (.prim .null) [] ⟨⟨[]⟩, 0⟩
    (by decide)

/-- C7 counterexample: -= on a VARIABLE with a non-numeric right side
(the unbound current value reads as the numeric 0, the right side "a"
is not numeric-looking) does not fail at all: assignToVariable computes
JS 0 - "a" = NaN and stores it. -/
theorem C7_variable_minus_no_error :
    evalE 10 none (.assign ["x"] false .minusAssign (.lit (.str "a")))
        (.prim .null) [] ⟨⟨[]⟩, 0⟩
      = .ok (.prim .nan, .prim .null, [("x", .prim .nan)], ⟨⟨[]⟩, 0⟩) ∧
    (toNumV ⟨[]⟩ (.prim (.str "a"))).isSome = false :=
  ⟨rfl, rfl⟩

/-- C7 (amended): -= on a KNOWLEDGE path whose current and right-hand
values are not both numeric-looking fails with "Subtraction is only
valid for numeric values", while -= on a variable never raises that
error: it stores the JS subtraction result (NaN when an operand is not
numeric). -/
theorem C7_minus_nonnumeric (h : Heap) (a : Nat) (fields : List (String × Val))
    (finalProp : String) (value : Val) (name : String) (ps : List String)
    (k : Val) (vars : VarMap) (st : St)
    (hobj : h.get a = some (.obj fields))
    (hnn : ¬ ((toNumV h (jsOrZero (getAssoc fields finalProp))).isSome ∧
      (toNumV h value).isSome)) :
    setFinalF h (.ref a) finalProp .minusAssign value
      = .error (.evalErr "Subtraction is only valid for numeric values") ∧
    assignToVariableF (name :: ps) .minusAssign value k vars st
      = .ok (jsSub st.heap (jsOrZero (getAssoc vars name)) value, k,
          setAssoc vars name (jsSub st.heap (jsOrZero (getAssoc vars name)) value),
          st) := by
  constructor
  · simp only [setFinalF, hobj]
    cases h1 : toNumV h (jsOrZero (getAssoc fields finalProp)) with
    | some x =>
        cases h2 : toNumV h value with
        | some y => exact absurd ⟨by simp [h1], by simp [h2]⟩ hnn
        | none => rfl
    | none =>
        cases h2 : toNumV h value with
        | some y => rfl
        | none => rfl
  · rfl

/-- Witness for C7: the knowledge property y is absent (current is 0)
and the value "a" is not numeric, so the knowledge path errors and the
variable path stores NaN. -/
theorem C7_minus_nonnumeric_witness :
    (setFinalF ⟨[.obj []]⟩ (.ref 0) "y" .minusAssign (.prim (.str "a"))
      = .error (.evalErr "Subtraction is only valid for numeric values")) ∧
    (assignToVariableF ["x"] .minusAssign (.prim (.str "a"))
        (.prim .null) [] ⟨⟨[]⟩, 0⟩
      = .ok (jsSub (⟨⟨[]⟩, 0⟩ : St).heap (jsOrZero (getAssoc [] "x"))
          (.prim (.str "a")), .prim .null,
          setAssoc [] "x" (jsSub (⟨⟨[]⟩, 0⟩ : St).heap (jsOrZero (getAssoc [] "x"))
            (.prim (.str "a"))), ⟨⟨[]⟩, 0⟩)) :=
  C7_minus_nonnumeric ⟨[.obj []]⟩ 0 [] "y" (.prim (.str "a")) "x" []
    (.prim .null) [] ⟨⟨[]⟩, 0⟩ rfl (by decide)

/-- C8 counterexample: a ConditionalExpression without else whose
condition is the assignment dollar-dollar.x = 0 evaluates to the empty
string as claimed, but the knowledge is NOT unchanged: it carries the
condition's own side effect (x set to 0), so the updated knowledge
reads back as an object with x while the incoming knowledge reads back
empty. -/
theorem C8_condition_effects_kept :
    evalE 10 none (.cond (.assign ["$", "x"] true .assignEq
        (.lit (.num ⟨0, 1⟩))) (.lit (.str "yes")) none)
        (.ref 0) [] ⟨⟨[.obj []]⟩, 0⟩
      = .ok (.prim (.str ""), .ref 1, [],
          ⟨⟨[.obj [], .obj [("x", .prim (.num ⟨0, 1⟩))]]⟩, 0⟩) ∧
    readBackF 5 ⟨[.obj [], .obj [("x", .prim (.num ⟨0, 1⟩))]]⟩ (.ref 1)
      = some (.obj (.cons "x" (.prim (.num ⟨0, 1⟩)) .nil)) ∧
    readBackF 5 ⟨[.obj [], .obj [("x", .prim (.num ⟨0, 1⟩))]]⟩ (.ref 0)
      = some (.obj .nil) ∧
    ¬ (some (PureVal.obj (.cons "x" (.prim (.num ⟨0, 1⟩)) .nil))
        = some (PureVal.obj .nil)) := by
  refine ⟨rfl, rfl, rfl, ?_⟩
  intro hcontra
  cases hcontra

/-- C8 (amended): for a ConditionalExpression with no else branch whose
condition evaluates to a falsy value, evaluation returns the empty
string — not an error — and the knowledge is exactly the knowledge the
CONDITION evaluation produced (the conditional adds no change of its
own, but the condition's side effects remain). -/
theorem C8_falsy_no_else (n : Nat) (g : Option GrammarT) (c t : Node)
    (k : Val) (vars : VarMap) (st : St) (cv k1 : Val) (vars1 : VarMap)
    (st1 : St)
    (hc : evalE n g c k vars st = .ok (cv, k1, vars1, st1))
    (hf : truthy cv = false) :
    evalE (n + 1) g (.cond c t none) k vars st
      = .ok (.prim (.str ""), k1, vars1, st1) := by
  simp [evalE, hc, hf]

/-- Witness for C8 on the falsy assignment condition of the
counterexample input. -/
theorem C8_falsy_no_else_witness :
    evalE (9 + 1) none (.cond (.assign ["$", "x"] true .assignEq
        (.lit (.num ⟨0, 1⟩))) (.lit (.str "yes")) none)
        (.ref 0) [] ⟨⟨[.obj []]⟩, 0⟩
      = .ok (.prim (.str ""), .ref 1, [],
          ⟨⟨[.obj [], .obj [("x", .prim (.num ⟨0, 1⟩))]]⟩, 0⟩) :=
  C8_falsy_no_else 9 none _ _ (.ref 0) [] ⟨⟨[.obj []]⟩, 0⟩
    (.prim (.num ⟨0, 1⟩)) (.ref 1) []
    ⟨⟨[.obj [], .obj [("x", .prim (.num ⟨0, 1⟩))]]⟩, 0⟩ rfl rfl

/-- C10 counterexample: dollar-x += 5 in a fresh scope binds x to the
STRING "05" (JS concatenates the numeric 0 with the string literal
"5"), not to the number 5. -/
theorem C10_plus_binds_string :
    evalE 10 none (.assign ["x"] false .plusAssign (.lit (.str "5")))
        (.prim .null) [] ⟨⟨[]⟩, 0⟩
      = .ok (.prim (.str "05"), .prim .null, [("x", .prim (.str "05"))],
          ⟨⟨[]⟩, 0⟩) ∧
    ¬ ((Val.prim (.str "05")) = .prim (.num ⟨5, 1⟩)) :=
  ⟨rfl, by decide⟩

/-- C10 (amended): For every += or -= assignment whose variable target
is unbound, or whose final knowledge property is absent or falsy, no
undefined-variable or missing-property error is raised: the current
value is taken to be the number 0.  On the knowledge path, with a
numeric-looking assigned value v, += stores 0 + v and -= stores 0 - v,
so $$.day += 1 against empty knowledge yields day = 1.  On a variable
target the raw JS operator is applied to 0 and the value: -= subtracts
numerically, but += concatenates when the value is a string, so
$x += 5 in a fresh scope binds x to the STRING "05", which a later
read of $x coerces back to the number 5. -/
theorem C10_current_defaults_to_zero (name : String) (ps : List String)
    (value k : Val) (vars : VarMap) (st : St) (h : Heap) (a : Nat)
    (fields : List (String × Val)) (finalProp : String) (q : Q)
    (hnb : getAssoc vars name = none)
    (hobj : h.get a = some (.obj fields))
    (habs : getAssoc fields finalProp = none ∨
      ∃ w, getAssoc fields finalProp = some w ∧ truthy w = false)
    (hq : toNumV h value = some q) :
    (assignToVariableF (name :: ps) .plusAssign value k vars st
      = .ok (jsAdd st.heap (.prim (.num ⟨0, 1⟩)) value, k,
          setAssoc vars name (jsAdd st.heap (.prim (.num ⟨0, 1⟩)) value), st)) ∧
    (assignToVariableF (name :: ps) .minusAssign value k vars st
      = .ok (jsSub st.heap (.prim (.num ⟨0, 1⟩)) value, k,
          setAssoc vars name (jsSub st.heap (.prim (.num ⟨0, 1⟩)) value), st)) ∧
    (setFinalF h (.ref a) finalProp .plusAssign value
      = .ok (.prim (.num (Q.add ⟨0, 1⟩ q)),
          h.set a (.obj (setAssoc fields finalProp
            (.prim (.num (Q.add ⟨0, 1⟩ q))))))) ∧
    (setFinalF h (.ref a) finalProp .minusAssign value
      = .ok (.prim (.num (Q.sub ⟨0, 1⟩ q)),
          h.set a (.obj (setAssoc fields finalProp
            (.prim (.num (Q.sub ⟨0, 1⟩ q))))))) ∧
    ((Q.add ⟨0, 1⟩ q).qeq q = true) ∧
    ((Q.sub ⟨0, 1⟩ q).qeq ⟨-q.n, q.d⟩ = true) ∧
    (evalE 1 none (.varRef ["x"] false) (.prim .null)
        [("x", .prim (.str "05"))] ⟨⟨[]⟩, 0⟩
      = .ok (.prim (.num ⟨5, 1⟩), .prim .null, [("x", .prim (.str "05"))],
          ⟨⟨[]⟩, 0⟩)) ∧
    ((match compileExecute "$start := [!$$.day += 1] d" .nil 0 500 with
      | .ok o => readBackF (o.heap.next + 1) o.heap o.knowledgeVal
      | .error _ => none)
      = some (.obj (.cons "day" (.prim (.num ⟨1, 1⟩)) .nil))) := by
  have hcur : jsOrZero (getAssoc fields finalProp) = .prim (.num ⟨0, 1⟩) := by
    rcases habs with h1 | ⟨w, hw, hf⟩
    · simp [h1, jsOrZero, Q.ofNat]
    · simp [hw, jsOrZero, hf, Q.ofNat]
  have h0 : toNumV h (.prim (.num ⟨0, 1⟩)) = some ⟨0, 1⟩ := rfl
  refine ⟨?_, ?_, ?_, ?_, ?_, ?_, rfl, rfl⟩
  · simp [assignToVariableF, hnb, jsOrZero, Q.ofNat]
  · simp [assignToVariableF, hnb, jsOrZero, Q.ofNat]
  · simp [setFinalF, hobj, hcur, hq, h0]
  · simp [setFinalF, hobj, hcur, hq, h0]
  · simp [Q.add, Q.qeq]
  · simp [Q.sub, Q.qeq]

/-- The C10 theorem at concrete inputs, exercising the falsy-present
knowledge property (day present with value 0), the string-valued "5",
and the unbound variable x. -/
theorem C10_current_defaults_to_zero_witness :
    (getAssoc ([] : VarMap) "x" = none) ∧
    (Heap.get ⟨[.obj [("day", .prim (.num ⟨0, 1⟩))]]⟩ 0
      = some (.obj [("day", .prim (.num ⟨0, 1⟩))])) ∧
    (getAssoc [("day", Val.prim (.num ⟨0, 1⟩))] "day"
      = some (.prim (.num ⟨0, 1⟩))) ∧
    (truthy (.prim (.num ⟨0, 1⟩)) = false) ∧
    (toNumV ⟨[.obj [("day", .prim (.num ⟨0, 1⟩))]]⟩ (.prim (.str "5"))
      = some ⟨5, 1⟩) ∧
    (assignToVariableF ["x"] .plusAssign (.prim (.str "5")) (.prim .null) []
        ⟨⟨[]⟩, 0⟩
      = .ok (.prim (.str "05"), .prim .null, [("x", .prim (.str "05"))],
          ⟨⟨[]⟩, 0⟩)) ∧
    (assignToVariableF ["x"] .minusAssign (.prim (.str "5")) (.prim .null) []
        ⟨⟨[]⟩, 0⟩
      = .ok (.prim (.num ⟨-5, 1⟩), .prim .null,
          [("x", .prim (.num ⟨-5, 1⟩))], ⟨⟨[]⟩, 0⟩)) ∧
    (setFinalF ⟨[.obj [("day", .prim (.num ⟨0, 1⟩))]]⟩ (.ref 0) "day"
        .plusAssign (.prim (.str "5"))
      = .ok (.prim (.num ⟨5, 1⟩),
          ⟨[.obj [("day", .prim (.num ⟨5, 1⟩))]]⟩)) ∧
    (setFinalF ⟨[.obj [("day", .prim (.num ⟨0, 1⟩))]]⟩ (.ref 0) "day"
        .minusAssign (.prim (.str "5"))
      = .ok (.prim (.num ⟨-5, 1⟩),
          ⟨[.obj [("day", .prim (.num ⟨-5, 1⟩))]]⟩)) ∧
    ((Q.add ⟨0, 1⟩ ⟨5, 1⟩).qeq ⟨5, 1⟩ = true) ∧
    ((Q.sub ⟨0, 1⟩ ⟨5, 1⟩).qeq ⟨-5, 1⟩ = true) ∧
    (evalE 1 none (.varRef ["x"] false) (.prim .null)
        [("x", .prim (.str "05"))] ⟨⟨[]⟩, 0⟩
      = .ok (.prim (.num ⟨5, 1⟩), .prim .null, [("x", .prim (.str "05"))],
          ⟨⟨[]⟩, 0⟩)) ∧
    ((match compileExecute "$start := [!$$.day += 1] d" .nil 0 500 with
      | .ok o => readBackF (o.heap.next + 1) o.heap o.knowledgeVal
      | .error _ => none)
      = some (.obj (.cons "day" (.prim (.num ⟨1, 1⟩)) .nil))) :=
  ⟨rfl, rfl, rfl, rfl, rfl,
    C10_current_defaults_to_zero "x" [] (.prim (.str "5")) (.prim .null) [] ⟨⟨[]⟩, 0⟩
      ⟨[.obj [("day", .prim (.num ⟨0, 1⟩))]]⟩ 0
      [("day", .prim (.num ⟨0, 1⟩))] "day" ⟨5, 1⟩ rfl rfl
      (.inr ⟨.prim (.num ⟨0, 1⟩), rfl, rfl⟩) rfl⟩

/-! ### Heap-preservation lemmas -/

theorem heapLE_refl (h : Heap) : HeapLE h h := ⟨le_refl _, fun _ _ => rfl⟩

theorem preservedBelow_trans {c : Nat} {h h' h'' : Heap}
    (h1 : PreservedBelow c h h') (h2 : PreservedBelow c h' h'') :
    PreservedBelow c h h'' :=
  ⟨h1.1.trans h2.1, fun a ha => (h2.2 a ha).trans (h1.2 a ha)⟩

theorem heapLE_trans {h h' h'' : Heap} (h1 : HeapLE h h') (h2 : HeapLE h' h'') :
    HeapLE h h'' :=
  ⟨h1.1.trans h2.1, fun a ha =>
    (h2.2 a (lt_of_lt_of_le ha h1.1)).trans (h1.2 a ha)⟩

theorem heapLE_preservedBelow {c : Nat} {h h' : Heap} (hc : c ≤ h.next)
    (h1 : HeapLE h h') : PreservedBelow c h h' :=
  ⟨h1.1, fun a ha => h1.2 a (lt_of_lt_of_le ha hc)⟩

theorem alloc_heapLE (h : Heap) (o : HObj) : HeapLE h (h.alloc o).2 := by
  refine ⟨by simp [Heap.alloc, Heap.next], fun a ha => ?_⟩
  simp only [Heap.alloc, Heap.get]
  rw [List.getElem?_append, if_pos (show a < h.data.length from ha)]

theorem alloc_get_new (h : Heap) (o : HObj) :
    (h.alloc o).2.get h.next = some o := by
  simp [Heap.alloc, Heap.get, Heap.next]

theorem alloc_fst (h : Heap) (o : HObj) : (h.alloc o).1 = .ref h.next := rfl

theorem alloc_next (h : Heap) (o : HObj) :
    (h.alloc o).2.next = h.next + 1 := by
  simp [Heap.alloc, Heap.next]

theorem set_preservedBelow (h : Heap) (a : Nat) (o : HObj) (c : Nat)
    (hc : c ≤ a) : PreservedBelow c h (h.set a o) := by
  refine ⟨by simp [Heap.set, Heap.next], fun b hb => ?_⟩
  simp only [Heap.set, Heap.get]
  rw [List.getElem?_set_ne]
  omega

theorem set_next (h : Heap) (a : Nat) (o : HObj) :
    (h.set a o).next = h.next := by
  simp [Heap.set, Heap.next]

theorem get_lt_next {h : Heap} {a : Nat} {o : HObj} (hg : h.get a = some o) :
    a < h.next := by
  by_contra hge
  have : h.data[a]? = none := List.getElem?_eq_none (by
    simp only [Heap.next] at hge
    omega)
  simp [Heap.get, this] at hg

/-- A fresh pure-value materialization only grows the heap, keeps the
fresh region self-contained, and returns a value in the fresh region. -/
theorem cloneInv_of_next (h : Heap) : CloneInv h h.next := by
  intro a o ha hg
  exact absurd (get_lt_next hg) (by omega)

mutual
theorem allocPure_spec (v : PureVal) (h : Heap) (c : Nat) (hc : c ≤ h.next)
    (hinv : CloneInv h c) :
    HeapLE h (allocPure v h).2 ∧ CloneInv (allocPure v h).2 c ∧
      ValGe c (allocPure v h).1 := by
  cases v with
  | prim p => exact ⟨heapLE_refl h, hinv, trivial⟩
  | obj fs =>
      have hf := allocPureFields_spec fs h c hc hinv
      simp only [allocPure]
      refine ⟨heapLE_trans hf.1 (alloc_heapLE _ _), ?_, ?_⟩
      · intro a o ha hg
        by_cases hlt : a < (allocPureFields fs h).2.next
        · have := ((alloc_heapLE (allocPureFields fs h).2 (.obj (allocPureFields fs h).1)).2 a hlt)
          rw [this] at hg
          exact hf.2.1 a o ha hg
        · have ha2 : a = (allocPureFields fs h).2.next := by
            have := get_lt_next hg
            rw [alloc_next] at this
            omega
          rw [ha2, alloc_get_new] at hg
          cases hg
          intro kv hkv
          exact hf.2.2 kv hkv
      · simp only [alloc_fst, ValGe]
        exact hc.trans hf.1.1
  | arr xs =>
      have hf := allocPureItems_spec xs h c hc hinv
      simp only [allocPure]
      refine ⟨heapLE_trans hf.1 (alloc_heapLE _ _), ?_, ?_⟩
      · intro a o ha hg
        by_cases hlt : a < (allocPureItems xs h).2.next
        · have := ((alloc_heapLE (allocPureItems xs h).2 (.arr (allocPureItems xs h).1)).2 a hlt)
          rw [this] at hg
          exact hf.2.1 a o ha hg
        · have ha2 : a = (allocPureItems xs h).2.next := by
            have := get_lt_next hg
            rw [alloc_next] at this
            omega
          rw [ha2, alloc_get_new] at hg
          cases hg
          intro x hx
          exact hf.2.2 x hx
      · simp only [alloc_fst, ValGe]
        exact hc.trans hf.1.1

theorem allocPureFields_spec (fs : PureFields) (h : Heap) (c : Nat)
    (hc : c ≤ h.next) (hinv : CloneInv h c) :
    HeapLE h (allocPureFields fs h).2 ∧
      CloneInv (allocPureFields fs h).2 c ∧
      ∀ kv ∈ (allocPureFields fs h).1, ValGe c kv.2 := by
  cases fs with
  | nil => exact ⟨heapLE_refl h, hinv, by simp [allocPureFields]⟩
  | cons k v rest =>
      have h1 := allocPure_spec v h c hc hinv
      have h2 := allocPureFields_spec rest (allocPure v h).2 c
        (hc.trans h1.1.1) h1.2.1
      simp only [allocPureFields]
      refine ⟨heapLE_trans h1.1 h2.1, h2.2.1, ?_⟩
      intro kv hkv
      rcases List.mem_cons.mp hkv with rfl | hkv
      · exact h1.2.2
      · exact h2.2.2 kv hkv

theorem allocPureItems_spec (xs : PureItems) (h : Heap) (c : Nat)
    (hc : c ≤ h.next) (hinv : CloneInv h c) :
    HeapLE h (allocPureItems xs h).2 ∧
      CloneInv (allocPureItems xs h).2 c ∧
      ∀ x ∈ (allocPureItems xs h).1, ValGe c x := by
  cases xs with
  | nil => exact ⟨heapLE_refl h, hinv, by simp [allocPureItems]⟩
  | cons v rest =>
      have h1 := allocPure_spec v h c hc hinv
      have h2 := allocPureItems_spec rest (allocPure v h).2 c
        (hc.trans h1.1.1) h1.2.1
      simp only [allocPureItems]
      refine ⟨heapLE_trans h1.1 h2.1, h2.2.1, ?_⟩
      intro x hx
      rcases List.mem_cons.mp hx with rfl | hx
      · exact h1.2.2
      · exact h2.2.2 x hx
end

theorem bounded_mono_c {h : Heap} {c c' : Nat} (hcc : c ≤ c') {v : Val}
    (hb : Bounded h c v) : Bounded h c' v := by
  induction hb with
  | prim p => exact .prim p
  | obj a fields ha hg _ ih =>
      exact .obj a fields (lt_of_lt_of_le ha hcc) hg ih
  | arr a items ha hg _ ih =>
      exact .arr a items (lt_of_lt_of_le ha hcc) hg ih

theorem bounded_congr {c : Nat} {h h' : Heap}
    (hag : ∀ a, a < c → h'.get a = h.get a) {v : Val}
    (hb : Bounded h c v) : Bounded h' c v := by
  induction hb with
  | prim p => exact .prim p
  | obj a fields ha hg _ ih => exact .obj a fields ha ((hag a ha).trans hg) ih
  | arr a items ha hg _ ih => exact .arr a items ha ((hag a ha).trans hg) ih

theorem readFieldsF_congr (g1 g2 : Val → Option PureVal) :
    ∀ (fields : List (String × Val)),
      (∀ kv ∈ fields, g1 kv.2 = g2 kv.2) →
      readFieldsF g1 fields = readFieldsF g2 fields := by
  intro fields
  induction fields with
  | nil => intro _; rfl
  | cons kv rest ih =>
      intro hfg
      simp only [readFieldsF]
      rw [hfg kv (List.mem_cons_self _ _),
        ih (fun kv2 hm => hfg kv2 (List.mem_cons_of_mem _ hm))]

theorem readItemsF_congr (g1 g2 : Val → Option PureVal) :
    ∀ (items : List Val), (∀ v ∈ items, g1 v = g2 v) →
      readItemsF g1 items = readItemsF g2 items := by
  intro items
  induction items with
  | nil => intro _; rfl
  | cons v rest ih =>
      intro hfg
      simp only [readItemsF]
      rw [hfg v (List.mem_cons_self _ _),
        ih (fun v2 hm => hfg v2 (List.mem_cons_of_mem _ hm))]

/-- Reading back a value bounded below c only depends on the heap below
c. -/
theorem readBack_congr {c : Nat} {h h' : Heap}
    (hag : ∀ a, a < c → h'.get a = h.get a) {v : Val}
    (hb : Bounded h c v) : ∀ f, readBackF f h' v = readBackF f h v := by
  induction hb with
  | prim p => intro f; cases f <;> rfl
  | obj a fields ha hg _ ih =>
      intro f
      cases f with
      | zero => rfl
      | succ f =>
          simp only [readBackF, (hag a ha).trans hg, hg]
          rw [readFieldsF_congr (readBackF f h') (readBackF f h) fields
            (fun kv hm => ih kv hm f)]
  | arr a items ha hg _ ih =>
      intro f
      cases f with
      | zero => rfl
      | succ f =>
          simp only [readBackF, (hag a ha).trans hg, hg]
          rw [readItemsF_congr (readBackF f h') (readBackF f h) items
            (fun v2 hm => ih v2 hm f)]

mutual
/-- A freshly materialized pure value is bounded in the resulting heap
and reads back to itself with enough fuel. -/
theorem allocPure_roundtrip (v : PureVal) (h : Heap) :
    Bounded (allocPure v h).2 (allocPure v h).2.next (allocPure v h).1 ∧
    ∀ f, sizeP v ≤ f →
      readBackF f (allocPure v h).2 (allocPure v h).1 = some v := by
  cases v with
  | prim p =>
      refine ⟨.prim p, fun f _ => ?_⟩
      cases f <;> rfl
  | obj fs =>
      have hf := allocPureFields_roundtrip fs h
      have hle : HeapLE (allocPureFields fs h).2 (allocPure (.obj fs) h).2 := by
        simp only [allocPure]
        exact alloc_heapLE _ _
      have hroot : (allocPure (.obj fs) h).1 = .ref (allocPureFields fs h).2.next := by
        simp only [allocPure]
        exact alloc_fst _ _
      have hget : (allocPure (.obj fs) h).2.get (allocPureFields fs h).2.next
          = some (.obj (allocPureFields fs h).1) := by
        simp only [allocPure]
        exact alloc_get_new _ _
      have hnext : (allocPure (.obj fs) h).2.next
          = (allocPureFields fs h).2.next + 1 := by
        simp only [allocPure]
        exact alloc_next _ _
      have hbf : ∀ kv ∈ (allocPureFields fs h).1,
          Bounded (allocPure (.obj fs) h).2 (allocPureFields fs h).2.next kv.2 :=
        fun kv hm => bounded_congr hle.2 (hf.1 kv hm)
      constructor
      · rw [hroot]
        refine .obj _ _ (by omega) hget ?_
        exact fun kv hm => bounded_mono_c (by omega) (hbf kv hm)
      · intro f hsz
        cases f with
        | zero => exact absurd hsz (by simp [sizeP])
        | succ f =>
            rw [hroot]
            simp only [readBackF, hget]
            have hout : readFieldsF (readBackF f (allocPure (.obj fs) h).2)
                (allocPureFields fs h).1
                = readFieldsF (readBackF f (allocPureFields fs h).2)
                  (allocPureFields fs h).1 :=
              readFieldsF_congr _ _ _
                (fun kv hm => readBack_congr hle.2 (hf.1 kv hm) f)
            rw [hout, hf.2 f (by simp [sizeP] at hsz; omega)]
            rfl
  | arr xs =>
      have hf := allocPureItems_roundtrip xs h
      have hle : HeapLE (allocPureItems xs h).2 (allocPure (.arr xs) h).2 := by
        simp only [allocPure]
        exact alloc_heapLE _ _
      have hroot : (allocPure (.arr xs) h).1 = .ref (allocPureItems xs h).2.next := by
        simp only [allocPure]
        exact alloc_fst _ _
      have hget : (allocPure (.arr xs) h).2.get (allocPureItems xs h).2.next
          = some (.arr (allocPureItems xs h).1) := by
        simp only [allocPure]
        exact alloc_get_new _ _
      have hnext : (allocPure (.arr xs) h).2.next
          = (allocPureItems xs h).2.next + 1 := by
        simp only [allocPure]
        exact alloc_next _ _
      have hbf : ∀ x ∈ (allocPureItems xs h).1,
          Bounded (allocPure (.arr xs) h).2 (allocPureItems xs h).2.next x :=
        fun x hm => bounded_congr hle.2 (hf.1 x hm)
      constructor
      · rw [hroot]
        refine .arr _ _ (by omega) hget ?_
        exact fun x hm => bounded_mono_c (by omega) (hbf x hm)
      · intro f hsz
        cases f with
        | zero => exact absurd hsz (by simp [sizeP])
        | succ f =>
            rw [hroot]
            simp only [readBackF, hget]
            have hout : readItemsF (readBackF f (allocPure (.arr xs) h).2)
                (allocPureItems xs h).1
                = readItemsF (readBackF f (allocPureItems xs h).2)
                  (allocPureItems xs h).1 :=
              readItemsF_congr _ _ _
                (fun x hm => readBack_congr hle.2 (hf.1 x hm) f)
            rw [hout, hf.2 f (by simp [sizeP] at hsz; omega)]
            rfl

theorem allocPureFields_roundtrip (fs : PureFields) (h : Heap) :
    (∀ kv ∈ (allocPureFields fs h).1,
      Bounded (allocPureFields fs h).2 (allocPureFields fs h).2.next kv.2) ∧
    ∀ f, sizeF fs ≤ f →
      readFieldsF (readBackF f (allocPureFields fs h).2)
        (allocPureFields fs h).1 = some fs := by
  cases fs with
  | nil => exact ⟨by simp [allocPureFields], fun f _ => rfl⟩
  | cons key v rest =>
      have h1 := allocPure_roundtrip v h
      have h2 := allocPureFields_roundtrip rest (allocPure v h).2
      have hle : HeapLE (allocPure v h).2 (allocPureFields rest (allocPure v h).2).2 :=
        (allocPureFields_spec rest (allocPure v h).2 (allocPure v h).2.next
          (le_refl _) (cloneInv_of_next _)).1
      have hfields : (allocPureFields (.cons key v rest) h).1
          = (key, (allocPure v h).1) :: (allocPureFields rest (allocPure v h).2).1 := by
        simp only [allocPureFields]
      have hheap : (allocPureFields (.cons key v rest) h).2
          = (allocPureFields rest (allocPure v h).2).2 := by
        simp only [allocPureFields]
      have hbv : Bounded (allocPureFields (.cons key v rest) h).2
          (allocPure v h).2.next (allocPure v h).1 := by
        rw [hheap]
        exact bounded_congr hle.2 h1.1
      constructor
      · intro kv hm
        rw [hfields] at hm
        rcases List.mem_cons.mp hm with rfl | hm
        · exact bounded_mono_c (by

            have := hle.1
            rw [hheap]
            omega) hbv
        · rw [hheap]
          exact h2.1 kv hm
      · intro f hsz
        rw [hfields, hheap]
        simp only [readFieldsF]
        have hv : readBackF f (allocPureFields rest (allocPure v h).2).2
            (allocPure v h).1 = some v := by
          rw [readBack_congr hle.2 h1.1 f]
          exact h1.2 f (by simp [sizeF] at hsz; omega)
        rw [hv, h2.2 f (by simp [sizeF] at hsz; omega)]

theorem allocPureItems_roundtrip (xs : PureItems) (h : Heap) :
    (∀ x ∈ (allocPureItems xs h).1,
      Bounded (allocPureItems xs h).2 (allocPureItems xs h).2.next x) ∧
    ∀ f, sizeI xs ≤ f →
      readItemsF (readBackF f (allocPureItems xs h).2)
        (allocPureItems xs h).1 = some xs := by
  cases xs with
  | nil => exact ⟨by simp [allocPureItems], fun f _ => rfl⟩
  | cons v rest =>
      have h1 := allocPure_roundtrip v h
      have h2 := allocPureItems_roundtrip rest (allocPure v h).2
      have hle : HeapLE (allocPure v h).2 (allocPureItems rest (allocPure v h).2).2 :=
        (allocPureItems_spec rest (allocPure v h).2 (allocPure v h).2.next
          (le_refl _) (cloneInv_of_next _)).1
      have hitems : (allocPureItems (.cons v rest) h).1
          = (allocPure v h).1 :: (allocPureItems rest (allocPure v h).2).1 := by
        simp only [allocPureItems]
      have hheap : (allocPureItems (.cons v rest) h).2
          = (allocPureItems rest (allocPure v h).2).2 := by
        simp only [allocPureItems]
      have hbv : Bounded (allocPureItems (.cons v rest) h).2
          (allocPure v h).2.next (allocPure v h).1 := by
        rw [hheap]
        exact bounded_congr hle.2 h1.1
      constructor
      · intro x hm
        rw [hitems] at hm
        rcases List.mem_cons.mp hm with rfl | hm
        · exact bounded_mono_c (by

            have := hle.1
            rw [hheap]
            omega) hbv
        · rw [hheap]
          exact h2.1 x hm
      · intro f hsz
        rw [hitems, hheap]
        simp only [readItemsF]
        have hv : readBackF f (allocPureItems rest (allocPure v h).2).2
            (allocPure v h).1 = some v := by
          rw [readBack_congr hle.2 h1.1 f]
          exact h1.2 f (by simp [sizeI] at hsz; omega)
        rw [hv, h2.2 f (by simp [sizeI] at hsz; omega)]
end

/-- The JSON clone only appends to the heap and yields a value whose
whole region is fresh and self-contained. -/
theorem jsonClone_spec (h : Heap) (v r : Val) (h' : Heap)
    (hc : jsonClone h v = some (r, h')) :
    HeapLE h h' ∧ CloneInv h' h.next ∧ ValGe h.next r := by
  unfold jsonClone at hc
  split at hc
  · rename_i pure heq
    have hs := allocPure_spec pure h h.next (le_refl _) (cloneInv_of_next h)
    rcases hp : allocPure pure h with ⟨rr, hh⟩
    rw [hp] at hc hs
    cases hc
    exact hs
  · exact absurd hc (by simp)

theorem setAssoc_valGe {c : Nat} {fields : List (String × Val)}
    {part : String} {w : Val} (hf : ∀ kv ∈ fields, ValGe c kv.2)
    (hw : ValGe c w) : ∀ kv ∈ setAssoc fields part w, ValGe c kv.2 := by
  intro kv hm
  rcases setAssoc_mem fields part w kv hm with h2 | h2
  · rw [h2]; exact hw
  · exact hf kv h2

theorem getAssoc_mem {α : Type} :
    ∀ (l : List (String × α)) (k : String) (v : α),
      getAssoc l k = some v → (k, v) ∈ l := by
  intro l k v
  induction l with
  | nil => intro h; exact absurd h (by simp [getAssoc])
  | cons kv tl ih =>
      intro h
      rcases kv with ⟨k0, v0⟩
      simp only [getAssoc] at h
      split at h
      · rename_i hk
        cases h
        have hk2 : k0 = k := by simpa using hk
        rw [hk2]
        exact List.mem_cons_self _ _
      · exact List.mem_cons_of_mem _ (ih h)

/-- Navigation inside the fresh clone only touches addresses at or
above c: below-c contents survive, the fresh region stays
self-contained, and the cursor stays in the fresh region. -/
theorem navPartsF_pres (c : Nat) :
    ∀ (parts : List String) (h : Heap) (cur : Val) (h' : Heap) (cur' : Val),
      CloneInv h c → ValGe c cur → c ≤ h.next →
      navPartsF h cur parts = .ok (h', cur') →
      PreservedBelow c h h' ∧ CloneInv h' c ∧ ValGe c cur' ∧ c ≤ h'.next := by
  intro parts
  induction parts with
  | nil =>
      intro h cur h' cur' hinv hcur hc hnav
      cases hnav
      exact ⟨⟨le_refl _, fun _ _ => rfl⟩, hinv, hcur, hc⟩
  | cons part rest ih =>
      intro h cur h' cur' hinv hcur hc hnav
      cases rest with
      | nil =>
          cases hnav
          exact ⟨⟨le_refl _, fun _ _ => rfl⟩, hinv, hcur, hc⟩
      | cons p2 rest2 =>
          cases cur with
          | prim p =>
              simp only [navPartsF] at hnav
              exact absurd hnav (by simp)
          | ref a =>
            have ha : c ≤ a := hcur
            simp only [navPartsF] at hnav
            cases hget : h.get a with
            | none => simp only [hget] at hnav; exact absurd hnav (by simp)
            | some o =>
              cases o with
              | obj fields =>
                  simp only [hget] at hnav
                  have hobjge : HObjGe c (.obj fields) := hinv a _ ha hget
                  cases hfind : getAssoc fields part with
                  | some v =>
                      simp only [hfind] at hnav
                      refine ih h v h' cur' hinv ?_ hc hnav
                      exact hobjge (part, v) (getAssoc_mem fields part v hfind)
                  | none =>
                      simp only [hfind] at hnav
                      set al := h.alloc (.obj []) with hal
                      have hLE1 : HeapLE h al.2 := alloc_heapLE h _
                      set h2 := al.2.set a (.obj (setAssoc fields part al.1))
                        with hh2
                      have hpres2 : PreservedBelow c al.2 h2 :=
                        set_preservedBelow al.2 a _ c ha
                      have hc2 : c ≤ h2.next := by
                        have h5 := hLE1.1
                        have h6 := hpres2.1
                        omega
                      have hinv2 : CloneInv h2 c := by
                        intro b o2 hb hg2
                        by_cases hba : b = a
                        · subst hba
                          have hbn : b < al.2.next := by
                            have h7 := get_lt_next hget
                            have h8 := hLE1.1
                            omega
                          have hgb : h2.get b
                              = some (.obj (setAssoc fields part al.1)) := by
                            simp only [hh2, Heap.set, Heap.get]
                            rw [List.getElem?_set_self]
                            simpa [Heap.next] using hbn
                          rw [hgb] at hg2
                          cases hg2
                          refine setAssoc_valGe hobjge ?_
                          rw [hal, alloc_fst]
                          exact hc
                        · have hgb : h2.get b = al.2.get b := by
                            simp only [hh2, Heap.set, Heap.get]
                            rw [List.getElem?_set_ne (by omega)]
                          rw [hgb] at hg2
                          by_cases hbn : b < h.next
                          · rw [hLE1.2 b hbn] at hg2
                            exact hinv b o2 hb hg2
                          · have hbeq : b = h.next := by
                              have h9 := get_lt_next hg2
                              rw [hal, alloc_next] at h9
                              omega
                            rw [hbeq, hal, alloc_get_new] at hg2
                            cases hg2
                            intro kv hkv
                            exact absurd hkv (by simp)
                      have hrec := ih h2 al.1 h' cur' hinv2
                        (by rw [hal, alloc_fst]; exact hc) hc2 hnav
                      exact ⟨preservedBelow_trans
                        (preservedBelow_trans (heapLE_preservedBelow hc hLE1) hpres2)
                        hrec.1, hrec.2⟩
              | arr items =>
                  simp only [hget] at hnav
                  set al := h.alloc (.obj []) with hal
                  have hLE1 : HeapLE h al.2 := alloc_heapLE h _
                  have hinv2 : CloneInv al.2 c := by
                    intro b o2 hb hg2
                    by_cases hbn : b < h.next
                    · rw [hLE1.2 b hbn] at hg2
                      exact hinv b o2 hb hg2
                    · have hbeq : b = h.next := by
                        have h9 := get_lt_next hg2
                        rw [hal, alloc_next] at h9
                        omega
                      rw [hbeq, hal, alloc_get_new] at hg2
                      cases hg2
                      intro kv hkv
                      exact absurd hkv (by simp)
                  have hrec := ih al.2 al.1 h' cur' hinv2
                    (by rw [hal, alloc_fst]; exact hc)
                    (by have h9 := hLE1.1; omega) hnav
                  exact ⟨preservedBelow_trans (heapLE_preservedBelow hc hLE1)
                    hrec.1, hrec.2⟩

/-- The final property write of assignToKnowledge only writes at or
above c. -/
theorem setFinalF_pres (c : Nat) (h : Heap) (cur : Val) (finalProp : String)
    (op : AOp) (value : Val) (r : Val) (h' : Heap)
    (hcur : ValGe c cur) (hset : setFinalF h cur finalProp op value = .ok (r, h')) :
    PreservedBelow c h h' := by
  match cur, hcur with
  | .prim _, _ =>
      simp only [setFinalF] at hset
      split at hset
      · split at hset
        · exact absurd hset (by simp)
        · exact absurd hset (by simp)
      · exact absurd hset (by simp)
  | .ref a, hcur =>
      have ha : c ≤ a := hcur
      simp only [setFinalF] at hset
      cases hget : h.get a with
      | none => simp only [hget] at hset; exact absurd hset (by simp)
      | some o =>
          cases o with
          | obj fields =>
              cases op with
              | assignEq =>
                  simp only [hget] at hset
                  cases hset
                  exact set_preservedBelow h a _ c ha
              | plusAssign =>
                  simp only [hget] at hset
                  cases hset
                  exact set_preservedBelow h a _ c ha
              | minusAssign =>
                  simp only [hget] at hset
                  cases hx : toNumV h (jsOrZero (getAssoc fields finalProp)) with
                  | some x =>
                      cases hy : toNumV h value with
                      | some y =>
                          simp only [hx, hy] at hset
                          cases hset
                          exact set_preservedBelow h a _ c ha
                      | none =>
                          simp only [hx, hy] at hset
                          exact absurd hset (by simp)
                  | none =>
                      cases hy : toNumV h value with
                      | some y =>
                          simp only [hx, hy] at hset
                          exact absurd hset (by simp)
                      | none =>
                          simp only [hx, hy] at hset
                          exact absurd hset (by simp)
          | arr items =>
              cases op with
              | assignEq =>
                  simp only [hget] at hset
                  cases hset
                  exact ⟨le_refl _, fun _ _ => rfl⟩
              | plusAssign =>
                  simp only [hget] at hset
                  cases hset
                  exact ⟨le_refl _, fun _ _ => rfl⟩
              | minusAssign =>
                  simp only [hget] at hset
                  cases hx : toNumV h (jsOrZero none) with
                  | some x =>
                      cases hy : toNumV h value with
                      | some y =>
                          simp only [hx, hy] at hset
                          cases hset
                          exact ⟨le_refl _, fun _ _ => rfl⟩
                      | none =>
                          simp only [hx, hy] at hset
                          exact absurd hset (by simp)
                  | none =>
                      cases hy : toNumV h value with
                      | some y =>
                          simp only [hx, hy] at hset
                          exact absurd hset (by simp)
                      | none =>
                          simp only [hx, hy] at hset
                          exact absurd hset (by simp)

/-- A knowledge assignment only grows the heap: the clone, the
navigation and the final write all leave pre-existing addresses
untouched. -/
theorem assignToKnowledgeF_pres (path : List String) (op : AOp)
    (value k : Val) (vars : VarMap) (st : St) (v k1 : Val) (vars1 : VarMap)
    (st1 : St)
    (hok : assignToKnowledgeF path op value k vars st = .ok (v, k1, vars1, st1)) :
    HeapLE st.heap st1.heap := by
  cases path with
  | nil => exact absurd hok (by simp [assignToKnowledgeF])
  | cons root pathParts =>
      simp only [assignToKnowledgeF] at hok
      split at hok
      · exact absurd hok (by simp)
      · cases hc : jsonClone st.heap k with
        | none => simp only [hc] at hok; exact absurd hok (by simp)
        | some pr =>
            rcases pr with ⟨newK, h2⟩
            simp only [hc] at hok
            have hcl := jsonClone_spec st.heap k newK h2 hc
            cases hn : navPartsF h2 newK pathParts with
            | error e => simp only [hn] at hok; exact absurd hok (by simp)
            | ok pr2 =>
                rcases pr2 with ⟨h3, cur⟩
                simp only [hn] at hok
                have hnp := navPartsF_pres st.heap.next pathParts h2 newK h3
                  cur hcl.2.1 hcl.2.2 hcl.1.1 hn
                cases hs : setFinalF h3 cur (pathParts.getLast?.getD "undefined")
                    op value with
                | error e => simp only [hs] at hok; exact absurd hok (by simp)
                | ok pr3 =>
                    rcases pr3 with ⟨result, h4⟩
                    simp only [hs] at hok
                    have hsp := setFinalF_pres st.heap.next h3 cur
                      (pathParts.getLast?.getD "undefined") op value result h4
                      hnp.2.2.1 hs
                    cases hok
                    exact preservedBelow_trans
                      (preservedBelow_trans hcl.1 hnp.1) hsp

/-- A variable assignment never touches the heap. -/
theorem assignToVariableF_pres (path : List String) (op : AOp)
    (value k : Val) (vars : VarMap) (st : St) (v k1 : Val) (vars1 : VarMap)
    (st1 : St)
    (hok : assignToVariableF path op value k vars st = .ok (v, k1, vars1, st1)) :
    HeapLE st.heap st1.heap := by
  cases op <;> simp only [assignToVariableF] at hok <;> cases hok <;>
    exact heapLE_refl _

/-- The error rewrap of VariableReference.evaluate is transparent on
successes. -/
theorem wrapVarErr_ok (name : String) (r : EvalRes)
    (x : Val × Val × VarMap × St) (hok : wrapVarErr name r = .ok x) :
    r = .ok x := by
  cases r with
  | ok y => simpa [wrapVarErr] using hok
  | error e => cases e <;> simp [wrapVarErr] at hok

/-- Array selection never touches the heap (only the random state). -/
theorem selectFromArrayF_pres (items : List Val) (k : Val) (vars : VarMap)
    (st : St) (v k1 : Val) (vars1 : VarMap) (st1 : St)
    (hok : selectFromArrayF items k vars st = .ok (v, k1, vars1, st1)) :
    st1.heap = st.heap := by
  cases items with
  | nil => simp only [selectFromArrayF] at hok; cases hok; rfl
  | cons it rest =>
      simp only [selectFromArrayF] at hok
      split at hok
      · split at hok
        all_goals (cases hok; rfl)
      · cases hok; rfl

/-- A knowledge-path read never touches the heap. -/
theorem evalKnowledgePathF_pres (path : List String) (k : Val)
    (vars : VarMap) (st : St) (v k1 : Val) (vars1 : VarMap) (st1 : St)
    (hok : evalKnowledgePathF path k vars st = .ok (v, k1, vars1, st1)) :
    st1.heap = st.heap := by
  cases path with
  | nil => exact absurd hok (by simp [evalKnowledgePathF])
  | cons root pathParts =>
      simp only [evalKnowledgePathF] at hok
      split at hok
      · exact absurd hok (by simp)
      · cases hw : kWalkF st.heap k pathParts ["$$"] with
        | error e => simp only [hw] at hok; exact absurd hok (by simp)
        | ok cur =>
            cases cur with
            | prim p => simp only [hw] at hok; cases hok; rfl
            | ref a =>
                cases hg : st.heap.get a with
                | none => simp only [hw, hg] at hok; cases hok; rfl
                | some o =>
                    cases o with
                    | obj fields =>
                        simp only [hw, hg] at hok; cases hok; rfl
                    | arr its =>
                        simp only [hw, hg] at hok
                        exact selectFromArrayF_pres its k vars st v k1 vars1
                          st1 hok

/-- The element loop only grows the heap when each element evaluation
does. -/
theorem evalElemsF_pres {ev : NodeEval} (hev : EvPres ev) :
    ∀ (f : Nat) (els : List Node) (res : String) (ns : Bool) (k : Val)
      (cur : VarMap) (st : St) (r : String) (k1 : Val) (cur1 : VarMap)
      (st1 : St),
      evalElemsF ev f els res ns k cur st = .ok (r, k1, cur1, st1) →
      HeapLE st.heap st1.heap := by
  intro f
  induction f with
  | zero =>
      intro els res ns k cur st r k1 cur1 st1 h
      exact absurd h (by simp [evalElemsF])
  | succ f ih =>
      intro els res ns k cur st r k1 cur1 st1 h
      cases els with
      | nil => simp only [evalElemsF] at h; cases h; exact heapLE_refl _
      | cons el rest =>
          simp only [evalElemsF] at h
          cases he : ev el k cur st with
          | error e => simp only [he] at h; exact absurd h (by simp)
          | ok q =>
              rcases q with ⟨v, k2, curOut, st2⟩
              simp only [he] at h
              have h1 := hev el k cur st v k2 curOut st2 he
              split at h
              · exact heapLE_trans h1
                  (ih rest res ns k2 curOut st2 r k1 cur1 st1 h)
              · exact heapLE_trans h1
                  (ih rest _ true k2 curOut st2 r k1 cur1 st1 h)

/-- Alternative.evaluate only grows the heap. -/
theorem evalAltF_pres {ev : NodeEval} (hev : EvPres ev) (f : Nat) (alt : Alt)
    (k : Val) (vars : VarMap) (st : St) (v k1 : Val) (vars1 : VarMap)
    (st1 : St) (h : evalAltF ev f alt k vars st = .ok (v, k1, vars1, st1)) :
    HeapLE st.heap st1.heap := by
  simp only [evalAltF] at h
  cases he : evalElemsF ev f alt.elements "" false k vars st with
  | error e => simp only [he] at h; exact absurd h (by simp)
  | ok q =>
      rcases q with ⟨res, k2, cur2, st2⟩
      simp only [he] at h
      have h1 := evalElemsF_pres hev f alt.elements "" false k vars st res k2
        cur2 st2 he
      cases h
      exact h1

/-- A chosen alternative (with variable copy and write-back) only grows
the heap. -/
theorem evalChosenAltF_pres {ev : NodeEval} (hev : EvPres ev) (f : Nat)
    (alt : Alt) (k : Val) (vars : VarMap) (st : St) (v k1 : Val)
    (vars1 : VarMap) (st1 : St)
    (h : evalChosenAltF ev f alt k vars st = .ok (v, k1, vars1, st1)) :
    HeapLE st.heap st1.heap := by
  simp only [evalChosenAltF] at h
  cases he : evalAltF ev f alt k vars st with
  | error e => simp only [he] at h; exact absurd h (by simp)
  | ok q =>
      rcases q with ⟨w, k2, altOut, st2⟩
      simp only [he] at h
      have h1 := evalAltF_pres hev f alt k vars st w k2 altOut st2 he
      cases h
      exact h1

/-- The cumulative-weight walk only grows the heap. -/
theorem selectLoopF_pres {ev : NodeEval} (hev : EvPres ev) (f : Nat) :
    ∀ (alts : List Alt) (random cw : Q) (allAlts : List Alt) (k : Val)
      (vars : VarMap) (st : St) (v k1 : Val) (vars1 : VarMap) (st1 : St),
      selectLoopF ev f alts random cw allAlts k vars st
        = .ok (v, k1, vars1, st1) →
      HeapLE st.heap st1.heap := by
  intro alts
  induction alts with
  | nil =>
      intro random cw allAlts k vars st v k1 vars1 st1 h
      simp only [selectLoopF] at h
      cases hl : allAlts.getLast? with
      | none => simp only [hl] at h; exact absurd h (by simp)
      | some alt =>
          simp only [hl] at h
          exact evalChosenAltF_pres hev f alt k vars st v k1 vars1 st1 h
  | cons alt rest ih =>
      intro random cw allAlts k vars st v k1 vars1 st1 h
      simp only [selectLoopF] at h
      split at h
      · exact evalChosenAltF_pres hev f alt k vars st v k1 vars1 st1 h
      · exact ih _ _ allAlts k vars st v k1 vars1 st1 h

/-- Weighted selection only grows the heap. -/
theorem selectWeightedF_pres {ev : NodeEval} (hev : EvPres ev) (f : Nat)
    (alts : List Alt) (k : Val) (vars : VarMap) (st : St) (v k1 : Val)
    (vars1 : VarMap) (st1 : St)
    (h : selectWeightedF ev f alts k vars st = .ok (v, k1, vars1, st1)) :
    HeapLE st.heap st1.heap := by
  simp only [selectWeightedF] at h
  exact selectLoopF_pres hev f alts _ _ alts k vars
    ⟨st.heap, (rngNext st.rng).2⟩ v k1 vars1 st1 h

/-- Rule.evaluate only grows the heap. -/
theorem evalRuleF_pres {ev : NodeEval} (hev : EvPres ev) (f : Nat)
    (rule : RuleT) (k : Val) (vars : VarMap) (st : St) (v k1 : Val)
    (vars1 : VarMap) (st1 : St)
    (h : evalRuleF ev f rule k vars st = .ok (v, k1, vars1, st1)) :
    HeapLE st.heap st1.heap := by
  simp only [evalRuleF] at h
  cases halts : rule.alternatives with
  | nil => simp only [halts] at h; exact absurd h (by simp)
  | cons alt rest =>
      cases rest with
      | nil =>
          simp only [halts] at h
          exact evalAltF_pres hev f alt k vars st v k1 vars1 st1 h
      | cons a2 r2 =>
          simp only [halts] at h
          exact selectWeightedF_pres hev f _ k vars st v k1 vars1 st1 h

/-- The compound-expression loop only grows the heap. -/
theorem evalCompoundF_pres {ev : NodeEval} (hev : EvPres ev) :
    ∀ (f : Nat) (es : List Node) (last k : Val) (cur parent : VarMap)
      (st : St) (last1 k1 : Val) (cur1 parent1 : VarMap) (st1 : St),
      evalCompoundF ev f es last k cur parent st
        = .ok (last1, k1, cur1, parent1, st1) →
      HeapLE st.heap st1.heap := by
  intro f
  induction f with
  | zero =>
      intro es last k cur parent st last1 k1 cur1 parent1 st1 h
      exact absurd h (by simp [evalCompoundF])
  | succ f ih =>
      intro es last k cur parent st last1 k1 cur1 parent1 st1 h
      cases es with
      | nil => simp only [evalCompoundF] at h; cases h; exact heapLE_refl _
      | cons e rest =>
          simp only [evalCompoundF] at h
          cases he : ev e k cur st with
          | error er => simp only [he] at h; exact absurd h (by simp)
          | ok q =>
              rcases q with ⟨w, k2, curOut, st2⟩
              simp only [he] at h
              exact heapLE_trans (hev e k cur st w k2 curOut st2 he)
                (ih rest w k2 curOut (mergeInto curOut parent) st2 last1 k1
                  cur1 parent1 st1 h)

/-- The conditional compound-branch map only grows the heap. -/
theorem condMapF_pres {ev : NodeEval} (hev : EvPres ev) :
    ∀ (f : Nat) (es : List Node) (k : Val) (vars : VarMap) (st : St)
      (results : List (Val × Val)) (vars1 : VarMap) (st1 : St),
      condMapF ev f es k vars st = .ok (results, vars1, st1) →
      HeapLE st.heap st1.heap := by
  intro f
  induction f with
  | zero =>
      intro es k vars st results vars1 st1 h
      exact absurd h (by simp [condMapF])
  | succ f ih =>
      intro es k vars st results vars1 st1 h
      cases es with
      | nil => simp only [condMapF] at h; cases h; exact heapLE_refl _
      | cons e rest =>
          simp only [condMapF] at h
          cases he : ev e k vars st with
          | error er => simp only [he] at h; exact absurd h (by simp)
          | ok q =>
              rcases q with ⟨w, k2, vars2, st2⟩
              simp only [he] at h
              cases hm : condMapF ev f rest k vars2 st2 with
              | error er => simp only [hm] at h; exact absurd h (by simp)
              | ok q2 =>
                  rcases q2 with ⟨rs, vars3, st3⟩
                  simp only [hm] at h
                  have h2 := ih rest k vars2 st2 rs vars3 st3 hm
                  cases h
                  exact heapLE_trans (hev e k vars st w k2 vars2 st2 he) h2

/-- The knowledge-merging reduce only allocates. -/
theorem condKMergeF_pres :
    ∀ (results : List (Val × Val)) (acc : Val) (h : Heap),
      HeapLE h (condKMergeF results acc h).2 := by
  intro results
  induction results with
  | nil => intro acc h; exact heapLE_refl _
  | cons pr rest ih =>
      intro acc h
      rcases pr with ⟨rv, rk⟩
      simp only [condKMergeF]
      exact heapLE_trans (alloc_heapLE _ _) (ih _ _)

/-- ConditionalExpression.evaluateBranch only grows the heap. -/
theorem evalBranchF_pres {ev : NodeEval} (hev : EvPres ev) (f : Nat)
    (branch : Node) (k : Val) (vars : VarMap) (st : St) (v k1 : Val)
    (vars1 : VarMap) (st1 : St)
    (h : evalBranchF ev f branch k vars st = .ok (v, k1, vars1, st1)) :
    HeapLE st.heap st1.heap := by
  cases branch
  case compound exprs =>
    simp only [evalBranchF] at h
    cases hm : condMapF ev f exprs k vars st with
    | error e => simp only [hm] at h; exact absurd h (by simp)
    | ok q =>
        rcases q with ⟨results, vars2, st2⟩
        simp only [hm] at h
        cases hj : condJoinF st2.heap results "" with
        | error e => simp only [hj] at h; exact absurd h (by simp)
        | ok combined =>
            simp only [hj] at h
            have h1 := condMapF_pres hev f exprs k vars st results vars2 st2 hm
            have h2 := condKMergeF_pres results k st2.heap
            cases h
            exact heapLE_trans h1 h2
  all_goals exact hev _ _ _ _ _ _ _ _ h

/-- VariableReference.evaluateVariable only grows the heap. -/
theorem evalVariableF_pres {ev : NodeEval} (hev : EvPres ev) (f : Nat)
    (g : Option GrammarT) (path : List String) (k : Val) (vars : VarMap)
    (st : St) (v k1 : Val) (vars1 : VarMap) (st1 : St)
    (h : evalVariableF ev f g path k vars st = .ok (v, k1, vars1, st1)) :
    HeapLE st.heap st1.heap := by
  simp only [evalVariableF] at h
  split at h
  · split at h
    · simp at h
    · cases h; exact heapLE_refl _
  · split at h
    · split at h
      · split at h
        · split at h
          · simp at h
          · rename_i w k2 vars2 st2 hq
            have hp := evalRuleF_pres hev f _ k vars st w k2 vars2 st2 hq
            split at h <;> (cases h; exact hp)
        · simp at h
      · simp at h
    · simp at h

/-- RuleReference.evaluate only grows the heap. -/
theorem evalRuleRefF_pres {ev : NodeEval} (hev : EvPres ev) (f : Nat)
    (g : Option GrammarT) (name : String) (k : Val) (vars : VarMap)
    (st : St) (v k1 : Val) (vars1 : VarMap) (st1 : St)
    (h : evalRuleRefF ev f g name k vars st = .ok (v, k1, vars1, st1)) :
    HeapLE st.heap st1.heap := by
  simp only [evalRuleRefF] at h
  split at h
  · cases h; exact heapLE_refl _
  · split at h
    · simp at h
    · split at h
      · simp at h
      · split at h
        · simp at h
        · rename_i w k2 vars2 st2 hq
          have hp := evalRuleF_pres hev f _ k vars st w k2 vars2 st2 hq
          split at h <;> (cases h; exact hp)

/-- The evaluator, at any fuel, only grows the heap: no node ever
deletes or overwrites a pre-existing heap object. -/
theorem evalE_pres : ∀ (n : Nat) (g : Option GrammarT), EvPres (evalE n g) := by
  intro n
  induction n with
  | zero =>
      intro g nd k vars st v k1 vars1 st1 h
      simp [evalE] at h
  | succ n ih =>
      intro g nd k vars st v k1 vars1 st1 h
      cases nd with
      | lit p =>
          simp only [evalE] at h
          cases h; exact heapLE_refl _
      | varRef path isK =>
          simp only [evalE] at h
          have h2 := wrapVarErr_ok _ _ _ h
          split at h2
          · have h3 := evalKnowledgePathF_pres path k vars st v k1 vars1 st1 h2
            rw [h3]; exact heapLE_refl _
          · exact evalVariableF_pres (ih g) n g path k vars st v k1 vars1 st1 h2
      | ruleRef name =>
          simp only [evalE] at h
          exact evalRuleRefF_pres (ih g) n g name k vars st v k1 vars1 st1 h
      | assign path isK op expr =>
          simp only [evalE] at h
          split at h
          · simp at h
          · rename_i w k2 vars2 st2 hq
            have h1 := ih g expr k vars st w k2 vars2 st2 hq
            split at h
            · exact heapLE_trans h1
                (assignToKnowledgeF_pres path op w k2 vars2 st2 v k1 vars1 st1 h)
            · exact heapLE_trans h1
                (assignToVariableF_pres path op w k2 vars2 st2 v k1 vars1 st1 h)
      | binop l op r =>
          simp only [evalE] at h
          split at h
          · simp at h
          · rename_i lv k2 vars2 st2 hq1
            split at h
            · simp at h
            · rename_i rv k3 vars3 st3 hq2
              cases h
              exact heapLE_trans (ih g l k vars st lv k2 vars2 st2 hq1)
                (ih g r k2 vars2 st2 _ _ _ _ hq2)
      | cond c t e =>
          simp only [evalE] at h
          split at h
          · simp at h
          · rename_i cv k2 vars2 st2 hq
            have h1 := ih g c k vars st cv k2 vars2 st2 hq
            split at h
            · exact heapLE_trans h1
                (evalBranchF_pres (ih g) n t k2 vars2 st2 v k1 vars1 st1 h)
            · split at h
              · exact heapLE_trans h1
                  (evalBranchF_pres (ih g) n _ k2 vars2 st2 v k1 vars1 st1 h)
              · cases h; exact h1
      | silent inner =>
          simp only [evalE] at h
          split at h
          · simp at h
          · rename_i w k2 vars2 st2 hq
            cases h
            exact ih g inner k vars st _ _ _ _ hq
      | compound es =>
          simp only [evalE] at h
          split at h
          · simp at h
          · rename_i last k2 curv parentOut st2 hq
            cases h
            exact evalCompoundF_pres (ih g) n es (.prim (.str "")) k vars vars
              st _ _ _ _ _ hq

/-- Grammar.evaluate only grows the heap. -/
theorem evalGrammar_pres (f : Nat) (g : GrammarT) (k : Val) (vars : VarMap)
    (st : St) (v k1 : Val) (vars1 : VarMap) (st1 : St)
    (h : evalGrammar f g k vars st = .ok (v, k1, vars1, st1)) :
    HeapLE st.heap st1.heap := by
  simp only [evalGrammar] at h
  split at h
  · simp at h
  · split at h
    · simp at h
    · rename_i w k2 vars2 st2 hq
      have hp := evalRuleF_pres (evalE_pres f (some g)) f _ k vars st w k2
        vars2 st2 hq
      split at h <;> (cases h; exact hp)

/-- C2: For every compiled grammar, knowledge object K, and seed S,
after execute(compiled, K, S) returns, the caller's object K is
deep-equal (bit-for-bit) to its value before the call, even when the
grammar assigns to knowledge paths.  In the embedding: reading the
caller's heap root back from the final heap (with any sufficient fuel)
yields exactly the knowledge that was passed in — the execution context
holds a shallow copy, knowledge assignment works on a JSON clone, and
every evaluation step only grows the heap. -/
theorem C2_caller_knowledge_unchanged (g : GrammarT) (K : PureFields)
    (S : Int) (fuel : Nat) (o : ExecOut) (f : Nat)
    (hrun : executeModel g K S fuel = .ok o)
    (hf : sizeP (.obj K) ≤ f) :
    readBackF f o.heap o.callerRoot = some (.obj K) := by
  simp only [executeModel] at hrun
  have hrt := allocPure_roundtrip (.obj K) ⟨[]⟩
  set load := allocPure (.obj K) (⟨[]⟩ : Heap) with hload
  set ctxK := load.2.alloc (.obj (spreadFields load.2 load.1)) with hctx
  split at hrun
  · simp at hrun
  · rename_i w k2 vars2 st2 hq
    cases hrun
    have hle1 : HeapLE load.2 ctxK.2 := alloc_heapLE _ _
    have hle2 : HeapLE ctxK.2 st2.heap :=
      evalGrammar_pres fuel g ctxK.1 [] ⟨ctxK.2, seedInit S⟩ w k2 vars2 st2 hq
    have hag : ∀ a, a < load.2.next → st2.heap.get a = load.2.get a := by
      intro a ha
      have e1 := hle1.2 a ha
      have e2 := hle2.2 a (lt_of_lt_of_le ha hle1.1)
      rw [e2, e1]
    have hcg := readBack_congr hag hrt.1 f
    show readBackF f st2.heap load.1 = some (.obj K)
    rw [hcg]
    exact hrt.2 f hf

/-- The C2 theorem applied to a concrete run: knowledge { hp: 75 }, a
grammar that adds 25 to $$.hp, seed 1.  The run succeeds and the
caller's object still reads back as { hp: 75 }. -/
theorem C2_caller_knowledge_unchanged_witness :
    executeModel gC2 kbC2 1 20 = .ok oC2 ∧ sizeP (.obj kbC2) ≤ 5 ∧
    readBackF 5 oC2.heap oC2.callerRoot = some (.obj kbC2) :=
  ⟨rfl, by decide,
    C2_caller_knowledge_unchanged gC2 kbC2 1 20 oC2 5 rfl (by decide)⟩

/-- C9: Assigning to a knowledge path whose intermediate objects are
missing creates each missing intermediate as an empty object in the
updated knowledge: for every seed, compiling and executing a grammar
performing $$.player.stats.hp = 100 against knowledge {} succeeds and
the updated knowledge reads back as { player: { stats: { hp: 100 } } } —
the intermediates player and stats were created and hold nothing beyond
the assigned path. -/
theorem C9_path_autocreation (S : Int) :
    ∃ o, compileExecute "$start := [!$$.player.stats.hp = 100] done" .nil S 30
        = .ok o ∧
      readBackF 9 o.heap o.knowledgeVal
        = some (.obj (.cons "player" (.obj (.cons "stats"
            (.obj (.cons "hp" (.prim (.num ⟨100, 1⟩)) .nil)) .nil)) .nil)) :=
  ⟨_, rfl, rfl⟩

end GenBNF
